import Mathlib

/-!
Verification of the moving-class scheduler of the BBJ repository
(`src/utils/scheduler.ts`), as a shallow embedding in Lean 4.

Modelling conventions, fixed once for the whole file:

* JavaScript `Map`s (which iterate in insertion order) are modelled as
  association lists built in the same order as the source pushes keys.
* `Record<string, Student>` is modelled as a `List Student`; where a claim
  needs the record-key property (distinct ids) it carries that hypothesis.
* Instance ids `` `${code}_${group}_${session}` `` are modelled structurally
  as a triple `InstId`.  The group component is a tag: homeroom ("pure")
  groups are rendered by the source as `` `${cls}반` `` and mixed groups as a
  decimal numeral, so the two renderings never collide and the tag is a
  faithful image of the string (assuming subject codes contain no `_`,
  which the `split('_')` in the source already assumes).
* JavaScript numbers holding sizes are modelled as `Int` (they can be
  non-positive in the degenerate cases some claims are about) and counts
  as `Nat`.
* `Math.random()`-driven choices of `optimizeBlockSequence` are modelled by
  an explicit list of index pairs `draws`; quantifying over all values of
  `draws` quantifies over all behaviours of the random source.
* Display-only output (`displayNames`, `classDetails`) is not observed by
  any claim and is omitted from the block model.
-/

namespace BBJ

/-- Student record (`src/state/types.ts`): `classNum` is optional there, and
the scheduler tests it for JS truthiness, so the empty string also counts as
"no homeroom". -/
structure Student where
  id : String
  selectedSubjects : List String
  classNum : Option String
deriving Repr, DecidableEq

/-- Subject metadata (`src/utils/persist.ts` interface `SubjectMeta`);
only the fields the scheduler reads are modelled. -/
structure SubjectMeta where
  code : String
  name : String
  teacherCount : Nat
  credit : Nat
deriving Repr, DecidableEq

/-- Classroom record; the scheduler reads only `maxSize` (of the first
classroom) but `minSize` is part of the type. -/
structure ClassRoom where
  minSize : Int
  maxSize : Int
deriving Repr, DecidableEq

/-- Group component of an instance id: a pure homeroom group
(`` `${cls}반` `` in the source) or a mixed chunk index (1-based). -/
inductive GroupTag where
  | homeroom (cls : String)
  | mixed (gi : Nat)
deriving Repr, DecidableEq

/-- Structured form of the instance id `` `${code}_${group}_${session}` ``. -/
structure InstId where
  code : String
  group : GroupTag
  session : Nat
deriving Repr, DecidableEq

/-- Subject instance: the `conflicts`/`degree` fields of the source are
derived data (see `conflictEdge` and `degreeOf` below) and are recomputed
rather than stored. -/
structure SubjectInstance where
  id : InstId
  students : List String
  isPure : Bool
deriving Repr, DecidableEq

/-- Scheduling option of `calculateMovingClasses`. -/
inductive ScheduleOption where
  | minBlocks
  | minSpace
deriving Repr, DecidableEq

/-- Schedule block: id plus the list of instance ids assigned to it. -/
structure ScheduleBlock where
  id : Int
  subjects : List InstId
deriving Repr, DecidableEq

/-- Result record of `calculateMovingClasses`. -/
structure ScheduleResult where
  blocks : List ScheduleBlock
  totalBlocks : Nat
  maxConcurrent : Nat
  warnings : List String
  instanceMap : List (InstId × List String)
  violations : List String
deriving Repr, DecidableEq

/-- Default used when the classroom list is empty
(`DEFAULT_MOVING_CLASS_SIZE = 25`). -/
def DEFAULT_MOVING_CLASS_SIZE : Int := 25

/-- Sequential chunking loop body of `splitIntoBalancedChunks`
(`for (let i = 0; i < total; i += maxSize)`), run with explicit fuel and an
`Int` index so that the non-terminating regime `maxSize <= 0` is
representable: `none` means the fuel was exhausted before the loop guard
turned false.  `items.slice(i, i + maxSize)` is rendered for the reachable
forward case `0 <= i`, `1 <= maxSize`; in the divergent regime the slice
values are irrelevant to the claims. -/
def seqLoopFuel (items : List String) (maxSize : Int) : Nat → Int → Option (List (List String))
  | 0, _ => none
  | fuel + 1, i =>
    if i < (items.length : Int) then
      match seqLoopFuel items maxSize fuel (i + maxSize) with
      | some rest => some (((items.drop i.toNat).take maxSize.toNat) :: rest)
      | none => none
    else
      some []

/-- Terminating rendering of the sequential chunking loop for a positive
chunk size, structurally recursive on fuel (initialised to `items.length`,
which `chunkSeqGo_join` and `seqLoopFuel_pos` below show is enough
fuel whenever the size is at least 1). -/
def chunkSeqGo (m : Nat) : Nat → List String → List (List String)
  | 0, _ => []
  | _, [] => []
  | fuel + 1, x :: xs => (x :: xs.take (m - 1)) :: chunkSeqGo m fuel (xs.drop (m - 1))

/-- Sequential chunking by `maxSize` (degenerate branch of
`splitIntoBalancedChunks`).  For `maxSize <= 0` the source loops forever
(see `seqLoopFuel_none_of_nonpos`); the total model returns `[]` there, and
every theorem about the pipeline that needs the chunking is therefore read
on the terminating regime `1 <= maxSize`. -/
def chunkSeq (items : List String) (maxSize : Int) : List (List String) :=
  if maxSize ≤ 0 then [] else chunkSeqGo maxSize.toNat items.length items

/-- Balanced loop of `splitIntoBalancedChunks`: `g` remaining groups, each of
`base` items plus one extra while `rem` is still positive (the source's
`i < remainder` test, counted down). -/
def takeChunks : Nat → Nat → Nat → List String → List (List String)
  | 0, _, _, _ => []
  | g + 1, base, rem, items =>
    let size := base + (if 0 < rem then 1 else 0)
    items.take size :: takeChunks g base (rem - 1) (items.drop size)

/-- The function `splitIntoBalancedChunks(items, minSize, maxSize)`. -/
def splitIntoBalancedChunks (items : List String) (minSize maxSize : Int) : List (List String) :=
  if items.length = 0 then []
  else if minSize ≤ 0 ∨ maxSize < minSize then chunkSeq items maxSize
  else
    let maxN := maxSize.toNat
    let g0 := (items.length + maxN - 1) / maxN
    let g := if g0 = 0 then 1 else g0
    takeChunks g (items.length / g) (items.length % g) items

/-! ### Step 0: mandatory-subject exclusion -/

/-- Number of selections of `code` over the whole population (the source
counts one per occurrence in each student's `selectedSubjects`). -/
def subjectCount (students : List Student) (code : String) : Nat :=
  (students.map (fun s => s.selectedSubjects.count code)).sum

/-- Exclusion condition of the source
(`count === totalStudentCount && totalStudentCount > 0`). -/
def mandatoryCond (students : List Student) (code : String) : Prop :=
  subjectCount students code = students.length ∧ 0 < students.length

instance (students : List Student) (code : String) : Decidable (mandatoryCond students code) :=
  inferInstanceAs (Decidable (And _ _))

/-- Names pushed to `excludedSubjects` while iterating `subjectMetas`. -/
def excludedSubjectNames (students : List Student) : List SubjectMeta → List String
  | [] => []
  | m :: ms =>
    if mandatoryCond students m.code then m.name :: excludedSubjectNames students ms
    else excludedSubjectNames students ms

/-- Membership of `code` in `activeSubjectCodes` (the `else if count > 0`
branch over the metadata list; a code with no metadata entry is never
added). -/
def activeCode (metas : List SubjectMeta) (students : List Student) (code : String) : Bool :=
  metas.any (fun m => decide (m.code = code)) &&
    (decide (0 < subjectCount students code) && !(decide (mandatoryCond students code)))

/-! ### Step 1: grouping students by (active) subject -/

/-- Keep-first deduplication, modelling the key order of a JS `Map`
populated by repeated `set`s: first occurrence wins. -/
def dedupFirstAux {α : Type} [DecidableEq α] (seen : List α) : List α → List α
  | [] => []
  | x :: xs => if x ∈ seen then dedupFirstAux seen xs else x :: dedupFirstAux (x :: seen) xs

/-- Keep-first deduplication of a list. -/
def dedupFirst {α : Type} [DecidableEq α] (l : List α) : List α :=
  dedupFirstAux [] l

/-- Iteration order of the `subjectGroups` map: active codes in order of
first appearance while scanning students and their selections. -/
def activeCodesInOrder (metas : List SubjectMeta) (students : List Student) : List String :=
  dedupFirst ((students.flatMap (fun s => s.selectedSubjects)).filter (activeCode metas students))

/-- The value `subjectGroups.get(code)`: ids of selecting students in scan
order (one push per occurrence of `code` in a student's selections). -/
def subjectGroup (students : List Student) (code : String) : List String :=
  students.flatMap (fun s => (s.selectedSubjects.filter (fun c => decide (c = code))).map (fun _ => s.id))

/-! ### Step 2: instance creation -/

/-- The lookup `students[sid]` (record access modelled on the list). -/
def lookupStudent (students : List Student) (sid : String) : Option Student :=
  students.find? (fun s => decide (s.id = sid))

/-- JS truthiness of `s.classNum`. -/
def hasClass (s : Student) : Bool :=
  match s.classNum with
  | some c => !(decide (c = ""))
  | none => false

/-- Homeroom key of a student with a truthy `classNum`. -/
def classKey (s : Student) : String := s.classNum.getD ""

/-- Push a value onto the entry of `k` in an insertion-ordered map of lists,
creating the entry at the end if absent (JS `Map` + push). -/
def pushEntry (k v : String) : List (String × List String) → List (String × List String)
  | [] => [(k, [v])]
  | e :: rest => if e.1 = k then (e.1, e.2 ++ [v]) :: rest else e :: pushEntry k v rest

/-- One scan step of the `homeroomCounts` loop: students without a truthy
`classNum` are skipped entirely (they reach neither a homeroom entry nor,
later, the mixed pool). -/
def homeroomStep (students : List Student) (m : List (String × List String)) (sid : String) :
    List (String × List String) :=
  match lookupStudent students sid with
  | some s => if hasClass s then pushEntry (classKey s) sid m else m
  | none => m

/-- The `homeroomCounts` map for one subject: selecting students with a
truthy `classNum`, grouped by homeroom in first-appearance order (the
source stores `count` and `students` together; `count` is the length). -/
def homeroomGroups (students : List Student) (sids : List String) : List (String × List String) :=
  sids.foldl (homeroomStep students) []

/-- The `totalHomeroomCounts` entry for `cls`: how many students of the whole
population have that truthy homeroom. -/
def totalHomeroomCount (students : List Student) (cls : String) : Nat :=
  (students.filter (fun s => hasClass s && decide (classKey s = cls))).length

/-- The `metaMap` lookup: `new Map(subjectMetas.map(m => [m.code, m]))` keeps
the last binding of each code. -/
def metaLookup (metas : List SubjectMeta) (code : String) : Option SubjectMeta :=
  metas.reverse.find? (fun m => decide (m.code = code))

/-- The credit used for a code (`meta ? meta.credit : 1`). -/
def creditOf (metas : List SubjectMeta) (code : String) : Nat :=
  match metaLookup metas code with
  | some m => m.credit
  | none => 1

/-- Subject display name used in violations (`meta ? meta.name : code`). -/
def displayNameOf (metas : List SubjectMeta) (code : String) : String :=
  match metaLookup metas code with
  | some m => m.name
  | none => code

/-- The chunk cap (`classes.length > 0 ? classes[0].maxSize :
DEFAULT_MOVING_CLASS_SIZE`). -/
def effMaxSize (classes : List ClassRoom) : Int :=
  match classes with
  | [] => DEFAULT_MOVING_CLASS_SIZE
  | c :: _ => c.maxSize

/-- Session numbers `1..credit` of the credit-expansion loop. -/
def sessions (credit : Nat) : List Nat :=
  (List.range credit).map (fun c => c + 1)

/-- Purity condition of a homeroom entry
(`entry.count === total && total > 0`). -/
def pureCond (students : List Student) (e : String × List String) : Bool :=
  decide (e.2.length = totalHomeroomCount students e.1) && decide (0 < totalHomeroomCount students e.1)

/-- One step of the pure/mixed split over `homeroomCounts`: a fully selecting
homeroom is kept as a pure group, any other entry spills its students into
the mixed pool (in entry order, matching `mixedStudents.push(...)`). -/
def splitPure (students : List Student) (groups : List (String × List String)) :
    List (String × List String) × List String :=
  groups.foldl
    (fun acc e => if pureCond students e then (acc.1 ++ [e], acc.2) else (acc.1, acc.2 ++ e.2))
    ([], [])

/-- Violation string of an undersized chunk, as formatted by the source. -/
def violationString (metas : List SubjectMeta) (code : String) (gi len : Nat) (minSize : Int) : String :=
  "[" ++ displayNameOf metas code ++ "] " ++ toString gi ++ "반 인원 부족: " ++ toString len ++
    "명 (최소 " ++ toString minSize ++ "명)"

/-- Instance constructor (`instances.push(...)` / `instanceMap.set(...)`). -/
def mkInstance (code : String) (g : GroupTag) (c : Nat) (roster : List String) (p : Bool) :
    SubjectInstance :=
  ⟨⟨code, g, c⟩, roster, p⟩

/-- All instances created for one active subject code, pure groups first
then mixed chunks, each expanded over `1..credit`. -/
def instancesForCode (classes : List ClassRoom) (students : List Student)
    (metas : List SubjectMeta) (minSize : Int) (code : String) : List SubjectInstance :=
  let sids := subjectGroup students code
  let credit := creditOf metas code
  let split := splitPure students (homeroomGroups students sids)
  let pureInsts := split.1.flatMap
    (fun e => (sessions credit).map (fun c => mkInstance code (.homeroom e.1) c e.2 true))
  let chunks := splitIntoBalancedChunks split.2 minSize (effMaxSize classes)
  let mixedInsts := chunks.enum.flatMap
    (fun p => (sessions credit).map (fun c => mkInstance code (.mixed (p.1 + 1)) c p.2 false))
  pureInsts ++ mixedInsts

/-- Violations recorded for one code (`chunk.length < minSize`). -/
def violationsForCode (classes : List ClassRoom) (students : List Student)
    (metas : List SubjectMeta) (minSize : Int) (code : String) : List String :=
  let split := splitPure students (homeroomGroups students (subjectGroup students code))
  let chunks := splitIntoBalancedChunks split.2 minSize (effMaxSize classes)
  chunks.enum.filterMap
    (fun p => if (p.2.length : Int) < minSize
      then some (violationString metas code (p.1 + 1) p.2.length minSize) else none)

/-- All instances, in creation order (per active code, in `subjectGroups`
iteration order). -/
def buildInstances (classes : List ClassRoom) (students : List Student)
    (metas : List SubjectMeta) (minSize : Int) : List SubjectInstance :=
  (activeCodesInOrder metas students).flatMap (instancesForCode classes students metas minSize)

/-- All recorded violations, in creation order. -/
def buildViolations (classes : List ClassRoom) (students : List Student)
    (metas : List SubjectMeta) (minSize : Int) : List String :=
  (activeCodesInOrder metas students).flatMap (violationsForCode classes students metas minSize)

/-! ### Step 3: conflict graph -/

/-- Roster overlap test (two instances share a student). -/
def rosterIntersects (a b : List String) : Bool :=
  a.any (fun s => b.contains s)

/-- Self-group key equality: `parts[0]_parts[1]` of the split id. -/
def sameGroupKey (x y : InstId) : Bool :=
  decide (x.code = y.code) && decide (x.group = y.group)

/-- Extensional description of the conflict set built by `addConflict`: two
distinct instances conflict when they share a student (edge class A) or
share the subject/group key (edge class B); the `Set`-based insertion makes
the edge set exactly this relation. -/
def conflictEdge (a b : SubjectInstance) : Bool :=
  !(decide (a.id = b.id)) && (rosterIntersects a.students b.students || sameGroupKey a.id b.id)

/-- Conflict degree of an instance over the instance list (each edge bumps
`degree` exactly once, so the degree is the size of the conflict set). -/
def degreeOf (instances : List SubjectInstance) (a : SubjectInstance) : Nat :=
  (instances.filter (fun b => conflictEdge a b)).length

/-- Stable insertion for the descending-degree sort: an element moves left
past exactly the strictly smaller degrees, so equal degrees keep their
original order — the sort semantics guaranteed for JS `Array.prototype.sort`
with comparator `(a, b) => b.degree - a.degree`. -/
def insertDesc (instances : List SubjectInstance) (x : SubjectInstance) :
    List SubjectInstance → List SubjectInstance
  | [] => [x]
  | y :: ys =>
    if degreeOf instances y < degreeOf instances x then x :: y :: ys
    else y :: insertDesc instances x ys

/-- Stable sort by descending degree, degrees measured over `instances`
(the list before sorting; sorting permutes the same elements, so degrees
are unchanged). -/
def sortByDegree (instances : List SubjectInstance) (l : List SubjectInstance) :
    List SubjectInstance :=
  l.foldl (fun acc x => insertDesc instances x acc) []

/-! ### Block assignment -/

/-- Lookup `instances.find(i => i.id === id)`. -/
def findInst (instances : List SubjectInstance) (eid : InstId) : Option SubjectInstance :=
  instances.find? (fun i => decide (i.id = eid))

/-- Membership of `existingId` in `inst.conflicts` (the conflict set only
holds ids of instances of the list). -/
def conflictsWith (instances : List SubjectInstance) (inst : SubjectInstance) (eid : InstId) : Bool :=
  match findInst instances eid with
  | some other => conflictEdge inst other
  | none => false

/-- The `sameSubjectCount` of `canFitInBlock`: occupants of the block whose
(looked-up) instance has the given code. -/
def sameCodeCount (instances : List SubjectInstance) (block : ScheduleBlock) (code : String) : Nat :=
  (block.subjects.filter (fun eid =>
    match findInst instances eid with
    | some o => decide (o.id.code = code)
    | none => false)).length

/-- The feasibility test `canFitInBlock`: no conflict-set member occupies the
block, and (when the subject has metadata) the same-code occupancy is
strictly below the teacher count. -/
def canFitInBlock (inst : SubjectInstance) (block : ScheduleBlock)
    (instances : List SubjectInstance) (metas : List SubjectMeta) : Bool :=
  block.subjects.all (fun eid => !(conflictsWith instances inst eid)) &&
    (match metaLookup metas inst.id.code with
     | none => true
     | some meta => decide (sameCodeCount instances block inst.id.code < meta.teacherCount))

/-- Append an instance to a block (`addToBlock`; display fields omitted). -/
def addToBlock (block : ScheduleBlock) (inst : SubjectInstance) : ScheduleBlock :=
  ⟨block.id, block.subjects ++ [inst.id]⟩

/-- Per-student sets of block ids, as an insertion-ordered association list
(the `studentBlocks` map of Policy A). -/
abbrev StudentBlocks := List (String × List Int)

/-- Lookup of a student's block-id set. -/
def sbGet (sb : StudentBlocks) (sid : String) : List Int :=
  match sb.find? (fun e => decide (e.1 = sid)) with
  | some e => e.2
  | none => []

/-- Add a block id to a student's set (`Set.add`: no duplicates). -/
def sbAddOne (sid : String) (bid : Int) : StudentBlocks → StudentBlocks
  | [] => [(sid, [bid])]
  | e :: rest =>
    if e.1 = sid then (if e.2.contains bid then e :: rest else (e.1, e.2 ++ [bid]) :: rest)
    else e :: sbAddOne sid bid rest

/-- The bookkeeping update `updateStudentBlocks`. -/
def updateStudentBlocks (inst : SubjectInstance) (bid : Int) (sb : StudentBlocks) : StudentBlocks :=
  inst.students.foldl (fun sb sid => sbAddOne sid bid sb) sb

/-- Gap contribution of one student for a candidate block id: span of the
set plus the candidate, minus the session count (`(max - min + 1) - count`);
an empty set contributes nothing (`continue`). -/
def gapCostStudent (bid : Int) (bs : List Int) : Int :=
  if bs.isEmpty then 0
  else (bs.foldl max bid - bs.foldl min bid + 1) - ((bs.length : Int) + 1)

/-- The function `calculateGapCost(inst, blockId, studentBlocks)`. -/
def calculateGapCost (inst : SubjectInstance) (bid : Int) (sb : StudentBlocks) : Int :=
  inst.students.foldl (fun acc sid => acc + gapCostStudent bid (sbGet sb sid)) 0

/-- Candidate selection of Policy A: scan existing blocks, keep the first
feasible block of strictly smallest gap cost (`cost < minGapCost`),
returning its index, the block, and its cost (`none` models
`bestBlock === null` / `minGapCost === Infinity`). -/
def pickBest (inst : SubjectInstance) (instances : List SubjectInstance)
    (metas : List SubjectMeta) (sb : StudentBlocks) (blocks : List ScheduleBlock) :
    Option (Nat × ScheduleBlock × Int) :=
  blocks.enum.foldl
    (fun best p =>
      if canFitInBlock inst p.2 instances metas then
        let cost := calculateGapCost inst p.2.id sb
        match best with
        | none => some (p.1, p.2, cost)
        | some q => if cost < q.2.2 then some (p.1, p.2, cost) else some q
      else best)
    none

/-- One Policy A (`min-blocks`) placement step: compare the best feasible
existing block against opening a new block (`!bestBlock || newBlockCost <
minGapCost`), then place and update the per-student bookkeeping. -/
def minBlocksStep (instances : List SubjectInstance) (metas : List SubjectMeta)
    (st : List ScheduleBlock × StudentBlocks) (inst : SubjectInstance) :
    List ScheduleBlock × StudentBlocks :=
  let blocks := st.1
  let sb := st.2
  let newId : Int := (blocks.length : Int) + 1
  let newCost := calculateGapCost inst newId sb
  match pickBest inst instances metas sb blocks with
  | none => (blocks ++ [⟨newId, [inst.id]⟩], updateStudentBlocks inst newId sb)
  | some q =>
    if newCost < q.2.2 then (blocks ++ [⟨newId, [inst.id]⟩], updateStudentBlocks inst newId sb)
    else (blocks.set q.1 (addToBlock q.2.1 inst), updateStudentBlocks inst q.2.1.id sb)

/-- First-fit scan of the `min-space` fallback: place into the first
feasible block, `none` when no existing block fits. -/
def placeFirstFit (inst : SubjectInstance) (instances : List SubjectInstance)
    (metas : List SubjectMeta) : List ScheduleBlock → Option (List ScheduleBlock)
  | [] => none
  | b :: bs =>
    if canFitInBlock inst b instances metas then some (addToBlock b inst :: bs)
    else
      match placeFirstFit inst instances metas bs with
      | some bs2 => some (b :: bs2)
      | none => none

/-- One `min-space` placement step (the source's comment: "Fallback to
min-blocks logic for mixed instances for now" — it is in fact plain
first-fit, with no gap-cost comparison). -/
def minSpaceStep (instances : List SubjectInstance) (metas : List SubjectMeta)
    (blocks : List ScheduleBlock) (inst : SubjectInstance) : List ScheduleBlock :=
  match placeFirstFit inst instances metas blocks with
  | some bs => bs
  | none => blocks ++ [⟨(blocks.length : Int) + 1, [inst.id]⟩]

/-- Mixed-instance scheduling under the chosen option. -/
def scheduleMixed (opt : ScheduleOption) (instances : List SubjectInstance)
    (metas : List SubjectMeta) (mixedInstances : List SubjectInstance) : List ScheduleBlock :=
  match opt with
  | .minBlocks => (mixedInstances.foldl (minBlocksStep instances metas) ([], [])).1
  | .minSpace => mixedInstances.foldl (minSpaceStep instances metas) []

/-- Pure-instance scheduling: each pure instance gets its own fresh block
appended at the end. -/
def addPureBlocks (blocks : List ScheduleBlock) (pureInstances : List SubjectInstance) :
    List ScheduleBlock :=
  pureInstances.foldl (fun bs i => bs ++ [⟨(bs.length : Int) + 1, [i.id]⟩]) blocks

/-- Feasible block of fewest occupants (first such block on ties), the
selection rule claim C1 attributes to the `min-space` option. -/
def leastLoadedFeasible (inst : SubjectInstance) (instances : List SubjectInstance)
    (metas : List SubjectMeta) (blocks : List ScheduleBlock) : Option (Nat × ScheduleBlock) :=
  blocks.enum.foldl
    (fun best p =>
      if canFitInBlock inst p.2 instances metas then
        match best with
        | none => some p
        | some q => if p.2.subjects.length < q.2.subjects.length then some p else some q
      else best)
    none

/-- Policy B exactly as claim C1 (and §4.3 of the spec) describes it — this
definition follows the claim's words, not the source, and exists to be
compared with `scheduleMixed .minSpace`: first run Policy A to learn the
minimum feasible block count `T`, create exactly `T` empty blocks up front,
then place each mixed instance (same order) into the feasible block with
the fewest occupants so far, appending a block beyond `T` only when no
existing block passes the feasibility test. -/
def claimedPolicyB (instances : List SubjectInstance) (metas : List SubjectMeta)
    (mixedInstances : List SubjectInstance) : List ScheduleBlock :=
  let T := (scheduleMixed .minBlocks instances metas mixedInstances).length
  let init := (List.range T).map (fun i => (⟨(i : Int) + 1, []⟩ : ScheduleBlock))
  mixedInstances.foldl
    (fun blocks inst =>
      match leastLoadedFeasible inst instances metas blocks with
      | some p => blocks.set p.1 (addToBlock p.2 inst)
      | none => blocks ++ [⟨(blocks.length : Int) + 1, [inst.id]⟩])
    init

/-! ### Post-processing: merge, sequence optimization, re-identification -/

/-- The purity lookup used to partition blocks
(`instances.find(i => i.id === id)` then `inst.isPure`). -/
def isPureId (instances : List SubjectInstance) (eid : InstId) : Bool :=
  match findInst instances eid with
  | some i => i.isPure
  | none => false

/-- A block is treated as pure when some occupant is a pure instance. -/
def isPureBlock (instances : List SubjectInstance) (b : ScheduleBlock) : Bool :=
  b.subjects.any (isPureId instances)

/-- All roster members of a block (`students1` of `canMerge`, ids resolved
through the instance list; unresolved ids contribute nothing). -/
def blockStudents (instances : List SubjectInstance) (b : ScheduleBlock) : List String :=
  b.subjects.flatMap (fun eid =>
    match findInst instances eid with
    | some i => i.students
    | none => [])

/-- Roster-disjointness half of `canMerge`: no student of `b2` already
appears among the students of `b1`. -/
def mergeStudentsOk (instances : List SubjectInstance) (b1 b2 : ScheduleBlock) : Bool :=
  b2.subjects.all (fun eid =>
    match findInst instances eid with
    | some i => i.students.all (fun s => !((blockStudents instances b1).contains s))
    | none => true)

/-- Capacity half of `canMerge`: for every code appearing (through a
resolved occupant) in the combined content with a metadata entry, the
combined same-code count stays within the teacher count. -/
def mergeCapOk (instances : List SubjectInstance) (metas : List SubjectMeta)
    (b1 b2 : ScheduleBlock) : Bool :=
  let ids := b1.subjects ++ b2.subjects
  ids.all (fun eid =>
    match findInst instances eid with
    | none => true
    | some i =>
      match metaLookup metas i.id.code with
      | none => true
      | some meta =>
        decide ((ids.filter (fun eid2 =>
          match findInst instances eid2 with
          | some o => decide (o.id.code = i.id.code)
          | none => false)).length ≤ meta.teacherCount))

/-- The pair test `canMerge(b1, b2, ...)`. -/
def canMerge (b1 b2 : ScheduleBlock) (instances : List SubjectInstance)
    (metas : List SubjectMeta) : Bool :=
  mergeStudentsOk instances b1 b2 && mergeCapOk instances metas b1 b2

/-- Inner scan of the merge loop: first later block mergeable with `b`,
with its offset. -/
def findPartner (instances : List SubjectInstance) (metas : List SubjectMeta)
    (b : ScheduleBlock) : List ScheduleBlock → Option (Nat × ScheduleBlock)
  | [] => none
  | b2 :: rest =>
    if canMerge b b2 instances metas then some (0, b2)
    else
      match findPartner instances metas b rest with
      | some p => some (p.1 + 1, p.2)
      | none => none

/-- First mergeable pair in lexicographic `(i, j)` order, `i < j` — exactly
the pair the double loop of `mergeBlocks` finds before restarting. -/
def findMergePair (instances : List SubjectInstance) (metas : List SubjectMeta) :
    List ScheduleBlock → Option (Nat × Nat × ScheduleBlock × ScheduleBlock)
  | [] => none
  | b :: bs =>
    match findPartner instances metas b bs with
    | some p => some (0, p.1 + 1, b, p.2)
    | none =>
      match findMergePair instances metas bs with
      | some q => some (q.1 + 1, q.2.1 + 1, q.2.2)
      | none => none

/-- Merge `b2` into `b1` at positions `i < j`: replace slot `i` by the
combined block and remove slot `j` (`splice(j, 1)`). -/
def applyMerge (blocks : List ScheduleBlock) (i j : Nat) (b1 b2 : ScheduleBlock) :
    List ScheduleBlock :=
  (blocks.set i ⟨b1.id, b1.subjects ++ b2.subjects⟩).eraseIdx j

/-- The `while (changed)` fixed-point loop of `mergeBlocks`, run on fuel.
Every successful merge shortens the list by one, so fuel equal to the
initial length always reaches the fixed point (`mergeLoop_fixed` below),
making this a faithful total rendering of the unbounded loop. -/
def mergeLoop (instances : List SubjectInstance) (metas : List SubjectMeta) :
    Nat → List ScheduleBlock → List ScheduleBlock
  | 0, blocks => blocks
  | fuel + 1, blocks =>
    match findMergePair instances metas blocks with
    | some q => mergeLoop instances metas fuel (applyMerge blocks q.1 q.2.1 q.2.2.1 q.2.2.2)
    | none => blocks

/-- The procedure `mergeBlocks(blocks, ...)`. -/
def mergeBlocks (instances : List SubjectInstance) (metas : List SubjectMeta)
    (blocks : List ScheduleBlock) : List ScheduleBlock :=
  mergeLoop instances metas blocks.length blocks

/-- Swap two positions of a list (`[a[i], a[j]] = [a[j], a[i]]`); out-of-range
indices never arise from `Math.floor(Math.random() * length)`. -/
def swapList {α : Type} (l : List α) (i j : Nat) : List α :=
  match l[i]?, l[j]? with
  | some a, some b => (l.set i b).set j a
  | _, _ => l

/-- Index of the block holding an instance id, under the current ordering
(the `instanceBlockMap`; an instance id occurs in at most one block, so the
first hit is the map entry). -/
def instBlockIdx : List ScheduleBlock → InstId → Option Nat
  | [], _ => none
  | b :: bs, eid =>
    if b.subjects.any (fun x => decide (x = eid)) then some 0
    else (instBlockIdx bs eid).map (fun k => k + 1)

/-- Block indices collected for one student, in instance order, one push per
roster occurrence (`studentBlockIndices`). -/
def studentIdxList (blocks : List ScheduleBlock) (entries : List (InstId × List String))
    (sid : String) : List Int :=
  entries.flatMap (fun e =>
    match instBlockIdx blocks e.1 with
    | some idx => (e.2.filter (fun s => decide (s = sid))).map (fun _ => (idx : Int))
    | none => [])

/-- Per-student gap under the current ordering (`(max - min + 1) - count`). -/
def studentGap (idxs : List Int) : Int :=
  match idxs with
  | [] => 0
  | x :: xs => (xs.foldl max x - xs.foldl min x + 1) - (idxs.length : Int)

/-- Students owning at least one placed roster slot — the key set of
`studentBlockIndices` (each student summed once). -/
def rosterStudents (blocks : List ScheduleBlock) (entries : List (InstId × List String)) :
    List String :=
  dedupFirst (entries.flatMap (fun e =>
    match instBlockIdx blocks e.1 with
    | some _ => e.2
    | none => []))

/-- The function `calculateTotalGapCost(blocks, allInstances)`. -/
def calculateTotalGapCost (blocks : List ScheduleBlock)
    (entries : List (InstId × List String)) : Int :=
  (rosterStudents blocks entries).foldl
    (fun acc sid => acc + studentGap (studentIdxList blocks entries sid)) 0

/-- One iteration of the hill-climb of `optimizeBlockSequence`: equal random
indices are skipped (`continue`), otherwise the swap is kept exactly when
the recomputed total cost strictly decreases. -/
def optStep (entries : List (InstId × List String))
    (st : List ScheduleBlock × Int) (d : Nat × Nat) : List ScheduleBlock × Int :=
  if d.1 = d.2 then st
  else
    let next := swapList st.1 d.1 d.2
    let c := calculateTotalGapCost next entries
    if c < st.2 then (next, c) else st

/-- The procedure `optimizeBlockSequence`, driven by the list of random index
pairs (1000 iterations in the source; quantifying over all `draws` covers
every budget and every random outcome). -/
def optimizeBlockSequence (entries : List (InstId × List String))
    (blocks : List ScheduleBlock) (draws : List (Nat × Nat)) : List ScheduleBlock :=
  (draws.foldl (optStep entries) (blocks, calculateTotalGapCost blocks entries)).1

/-- Re-assignment of ids after reordering (`b.id = i + 1`). -/
def reassignIds (n : Int) : List ScheduleBlock → List ScheduleBlock
  | [] => []
  | b :: bs => ⟨n, b.subjects⟩ :: reassignIds (n + 1) bs

/-! ### The pipeline `calculateMovingClasses`, staged -/

/-- The conflict-annotated, degree-sorted instance list the block assigner
works on. -/
def schedInstances (classes : List ClassRoom) (students : List Student)
    (metas : List SubjectMeta) (minSize : Int) : List SubjectInstance :=
  let instances0 := buildInstances classes students metas minSize
  sortByDegree instances0 instances0

/-- Blocks after mixed placement and pure-singleton placement. -/
def schedPlacedBlocks (classes : List ClassRoom) (students : List Student)
    (metas : List SubjectMeta) (opt : ScheduleOption) (minSize : Int) : List ScheduleBlock :=
  let instances := schedInstances classes students metas minSize
  let placed := scheduleMixed opt instances metas (instances.filter (fun i => !i.isPure))
  addPureBlocks placed (instances.filter (fun i => i.isPure))

/-- Blocks after merging the mixed-only blocks and re-appending the pure
blocks, before sequence optimization. -/
def schedPreOptBlocks (classes : List ClassRoom) (students : List Student)
    (metas : List SubjectMeta) (opt : ScheduleOption) (minSize : Int) : List ScheduleBlock :=
  let instances := schedInstances classes students metas minSize
  let blocks := schedPlacedBlocks classes students metas opt minSize
  mergeBlocks instances metas (blocks.filter (fun b => !(isPureBlock instances b))) ++
    blocks.filter (isPureBlock instances)

/-- The entry list seen by the sequence optimizer (instance id with roster,
in the sorted instance order it iterates). -/
def schedEntries (classes : List ClassRoom) (students : List Student)
    (metas : List SubjectMeta) (minSize : Int) : List (InstId × List String) :=
  (schedInstances classes students metas minSize).map (fun i => (i.id, i.students))

/-- The function `calculateMovingClasses`. -/
def calculateMovingClasses (classes : List ClassRoom) (students : List Student)
    (metas : List SubjectMeta) (opt : ScheduleOption) (minSize : Int)
    (draws : List (Nat × Nat)) : ScheduleResult :=
  let finalBlocks := reassignIds 1
    (optimizeBlockSequence (schedEntries classes students metas minSize)
      (schedPreOptBlocks classes students metas opt minSize) draws)
  let excluded := excludedSubjectNames students metas
  { blocks := finalBlocks
    totalBlocks := finalBlocks.length
    maxConcurrent := (finalBlocks.map (fun b => b.subjects.length)).foldl max 0
    warnings :=
      if excluded.isEmpty then []
      else ["Excluded Mandatory Subjects: " ++ String.intercalate ", " excluded]
    instanceMap := (buildInstances classes students metas minSize).map (fun i => (i.id, i.students))
    violations := buildViolations classes students metas minSize }

/-! ## Generic list-counting helpers -/

theorem filter_flatMap_comm {α β : Type} (l : List α) (f : α → List β) (p : β → Bool) :
    (l.flatMap f).filter p = l.flatMap (fun x => (f x).filter p) := by
  induction l with
  | nil => rfl
  | cons x xs ih =>
    simp only [List.flatMap_cons, List.filter_append, ih]

theorem sum_map_flatMap {α β : Type} (l : List α) (f : α → List β) (h : β → Nat) :
    ((l.flatMap f).map h).sum = (l.map (fun x => ((f x).map h).sum)).sum := by
  induction l with
  | nil => rfl
  | cons x xs ih =>
    simp only [List.flatMap_cons, List.map_append, List.sum_append, List.map_cons,
      List.sum_cons, ih]

theorem flatMap_singleton_eq_map {α β : Type} (l : List α) (g : α → β) :
    l.flatMap (fun x => [g x]) = l.map g := by
  induction l with
  | nil => rfl
  | cons x xs ih => simp only [List.flatMap_cons, List.map_cons, ih]; rfl

theorem sum_eq_single_code (F : String → Nat) :
    ∀ (l : List String) (code : String), l.Nodup → code ∈ l →
      (∀ c ∈ l, c ≠ code → F c = 0) → (l.map F).sum = F code := by
  intro l
  induction l with
  | nil => intro code _ h; simp at h
  | cons c cs ih =>
    intro code hnd hmem hz
    simp only [List.map_cons, List.sum_cons]
    rcases List.mem_cons.mp hmem with h | h
    · subst h
      have hrest : (cs.map F).sum = 0 := by
        rw [List.sum_eq_zero_iff]
        intro x hx
        obtain ⟨c2, hc2, hfc2⟩ := List.mem_map.mp hx
        rw [← hfc2]
        refine hz c2 (List.mem_cons_of_mem _ hc2) ?_
        intro hcon
        subst hcon
        exact (List.nodup_cons.mp hnd).1 hc2
      omega
    · have hc : c ≠ code := by
        intro hcon
        subst hcon
        exact (List.nodup_cons.mp hnd).1 h
      rw [hz c (List.mem_cons_self _ _) hc, ih code (List.nodup_cons.mp hnd).2 h
        (fun c2 hc2 => hz c2 (List.mem_cons_of_mem _ hc2))]
      omega

theorem count_flatMap_snd (sid : String) :
    ∀ l : List (String × List String),
      (l.flatMap Prod.snd).count sid = (l.map (fun e => e.2.count sid)).sum := by
  intro l
  induction l with
  | nil => rfl
  | cons e es ih =>
    simp only [List.flatMap_cons, List.count_append, List.map_cons, List.sum_cons, ih]

theorem count_flatten_chunks (sid : String) :
    ∀ l : List (List String), l.flatten.count sid = (l.map (fun c => c.count sid)).sum := by
  intro l
  induction l with
  | nil => rfl
  | cons c cs ih =>
    simp only [List.flatten_cons, List.count_append, List.map_cons, List.sum_cons, ih]

theorem sum_filter_split (f : String × List String → Nat) (p : String × List String → Bool) :
    ∀ l : List (String × List String),
      ((l.filter p).map f).sum + ((l.filter (fun e => !(p e))).map f).sum = (l.map f).sum := by
  intro l
  induction l with
  | nil => rfl
  | cons e es ih =>
    simp only [List.filter_cons, List.map_cons, List.sum_cons]
    by_cases hp : p e
    · rw [if_pos hp, if_neg (by simp [hp])]
      simp only [List.map_cons, List.sum_cons]
      omega
    · rw [if_neg hp, if_pos (by simp [hp])]
      simp only [List.map_cons, List.sum_cons]
      omega

theorem filter_eq_single_of_nodup {α : Type} [DecidableEq α] :
    ∀ (l : List α), l.Nodup → ∀ a : α,
      (l.filter (fun c => decide (c = a))).length = if a ∈ l then 1 else 0 := by
  intro l
  induction l with
  | nil => intro _ a; simp
  | cons x xs ih =>
    intro hnd a
    simp only [List.filter_cons]
    by_cases hx : x = a
    · subst hx
      rw [if_pos (by simp)]
      simp only [List.length_cons]
      rw [ih (List.nodup_cons.mp hnd).2 x, if_neg (List.nodup_cons.mp hnd).1,
        if_pos (List.mem_cons_self _ _)]
    · rw [if_neg (by simpa using hx)]
      rw [ih (List.nodup_cons.mp hnd).2 a]
      by_cases hmem : a ∈ xs
      · rw [if_pos hmem, if_pos (List.mem_cons_of_mem _ hmem)]
      · rw [if_neg hmem, if_neg (by
          intro hcon
          rcases List.mem_cons.mp hcon with h | h
          · exact hx h.symm
          · exact hmem h)]

/-! ## Chunking: fuel irrelevance, termination, divergence -/

theorem chunkSeqGo_fuel (m : Nat) :
    ∀ (f : Nat) (l : List String), l.length ≤ f →
      ∀ (f2 : Nat), l.length ≤ f2 → chunkSeqGo m f l = chunkSeqGo m f2 l := by
  intro f
  induction f with
  | zero =>
    intro l hl f2 _
    have : l = [] := List.eq_nil_of_length_eq_zero (Nat.le_zero.mp hl)
    subst this
    cases f2 <;> rfl
  | succ f ih =>
    intro l hl f2 hl2
    cases l with
    | nil => cases f2 <;> rfl
    | cons x xs =>
      cases f2 with
      | zero => simp at hl2
      | succ f2 =>
        simp only [chunkSeqGo]
        have hdrop : (xs.drop (m - 1)).length ≤ xs.length := by simp [List.length_drop]
        have h2 : xs.length ≤ f := by simpa using hl
        have h3 : xs.length ≤ f2 := by simpa using hl2
        rw [ih _ (le_trans hdrop h2) f2 (le_trans hdrop h3)]

theorem chunkSeqGo_join (m : Nat) :
    ∀ (f : Nat) (l : List String), l.length ≤ f → (chunkSeqGo m f l).flatten = l := by
  intro f
  induction f with
  | zero =>
    intro l hl
    have : l = [] := List.eq_nil_of_length_eq_zero (Nat.le_zero.mp hl)
    subst this; rfl
  | succ f ih =>
    intro l hl
    cases l with
    | nil => rfl
    | cons x xs =>
      simp only [chunkSeqGo, List.flatten_cons]
      have hdrop : (xs.drop (m - 1)).length ≤ f := by
        have h1 : (xs.drop (m - 1)).length ≤ xs.length := by simp [List.length_drop]
        have h2 : xs.length + 1 ≤ f + 1 := by simpa using hl
        omega
      rw [ih _ hdrop]
      simp [List.take_append_drop]

theorem chunkSeqGo_mem_length (m : Nat) (hm : 1 ≤ m) :
    ∀ (f : Nat) (l : List String) (c : List String), c ∈ chunkSeqGo m f l → c.length ≤ m := by
  intro f
  induction f with
  | zero => intro l c hc; simp [chunkSeqGo] at hc
  | succ f ih =>
    intro l c hc
    cases l with
    | nil => simp [chunkSeqGo] at hc
    | cons x xs =>
      simp only [chunkSeqGo, List.mem_cons] at hc
      rcases hc with h | h
      · subst h
        simp only [List.length_cons, List.length_take]
        omega
      · exact ih _ _ h

/-- The sequential loop of the source, run from a nonnegative index with a
positive step, terminates and produces exactly the chunks of the total
model `chunkSeqGo`. -/
theorem seqLoopFuel_pos (items : List String) (maxSize : Int) (hm : 1 ≤ maxSize) :
    ∀ (fuel : Nat) (i : Nat), items.length - i < fuel →
      seqLoopFuel items maxSize fuel (i : Int) =
        some (chunkSeqGo maxSize.toNat (items.length - i) (items.drop i)) := by
  intro fuel
  induction fuel with
  | zero => intro i h; omega
  | succ fuel ih =>
    intro i h
    have hmN : 1 ≤ maxSize.toNat := by omega
    by_cases hi : i < items.length
    · have hguard : (i : Int) < (items.length : Int) := by exact_mod_cast hi
      have hstep : (i : Int) + maxSize = ((i + maxSize.toNat : Nat) : Int) := by
        have hms : maxSize = (maxSize.toNat : Int) := (Int.toNat_of_nonneg (by omega)).symm
        push_cast
        omega
      have hih := ih (i + maxSize.toNat) (by omega)
      simp only [seqLoopFuel, hguard, if_true, hstep, hih]
      obtain ⟨x, xs, hxxs⟩ : ∃ x xs, items.drop i = x :: xs := by
        cases hdrop : items.drop i with
        | nil =>
          exfalso
          have := congrArg List.length hdrop
          simp [List.length_drop] at this
          omega
        | cons x xs => exact ⟨x, xs, rfl⟩
      have hxs : xs = items.drop (i + 1) := by
        have := congrArg (List.drop 1) hxxs
        simpa [List.drop_drop] using this.symm
      have hdd : xs.drop (maxSize.toNat - 1) = items.drop (i + maxSize.toNat) := by
        rw [hxs, List.drop_drop]
        congr 1
        omega
      obtain ⟨k, hk⟩ : ∃ k, items.length - i = k + 1 := ⟨items.length - i - 1, by omega⟩
      rw [hk, hxxs]
      simp only [chunkSeqGo, Option.some.injEq, List.cons.injEq]
      constructor
      · -- the pushed slice equals the model's chunk
        have hnat : ((i : Int)).toNat = i := Int.toNat_natCast i
        rw [hnat, hxxs]
        obtain ⟨m1, hm1⟩ : ∃ m1, maxSize.toNat = m1 + 1 := ⟨maxSize.toNat - 1, by omega⟩
        rw [hm1, List.take_succ_cons]
        simp [hm1]
      · -- the recursive results agree after adjusting fuel
        rw [hdd]
        have hlendrop : (items.drop (i + maxSize.toNat)).length =
            items.length - (i + maxSize.toNat) := by simp [List.length_drop]
        apply chunkSeqGo_fuel
        · omega
        · omega
    · have hguard : ¬ ((i : Int) < (items.length : Int)) := by exact_mod_cast hi
      have hz : items.length - i = 0 := by omega
      simp [seqLoopFuel, hguard, hz, chunkSeqGo]

/-- With a non-positive step and a nonempty item list the loop guard never
turns false: the loop runs forever (no fuel suffices), starting from any
non-positive index — in particular from the source's `i = 0`. -/
theorem seqLoopFuel_none_of_nonpos (items : List String) (maxSize : Int)
    (hm : maxSize ≤ 0) (hne : items ≠ []) :
    ∀ (fuel : Nat) (i : Int), i ≤ 0 → seqLoopFuel items maxSize fuel i = none := by
  intro fuel
  induction fuel with
  | zero => intro i _; rfl
  | succ fuel ih =>
    intro i hi
    have hlen : 0 < items.length := List.length_pos.mpr hne
    have hguard : i < (items.length : Int) := by
      have : (0 : Int) < (items.length : Int) := by exact_mod_cast hlen
      omega
    simp only [seqLoopFuel, hguard, if_true]
    rw [ih (i + maxSize) (by omega)]

/-- Claim C10: `splitIntoBalancedChunks` terminates for every input with
`maxSize >= 1` (the sequential loop reaches its exit within `length + 1`
iterations, yielding the chunks of the total model); for `maxSize <= 0` and
a nonempty item list, the degenerate branch guard holds for every
`minSize`, and the sequential loop it runs never terminates — no amount of
fuel makes it exit — so `calculateMovingClasses` hangs on such a classroom
record instead of failing gracefully. -/
theorem claim_C10_chunk_termination (items : List String) (minSize maxSize : Int) :
    (1 ≤ maxSize →
      seqLoopFuel items maxSize (items.length + 1) 0 =
        some (chunkSeqGo maxSize.toNat items.length items)) ∧
    (maxSize ≤ 0 → items ≠ [] →
      (minSize ≤ 0 ∨ maxSize < minSize) ∧
      ∀ fuel : Nat, seqLoopFuel items maxSize fuel 0 = none) := by
  constructor
  · intro hm
    have := seqLoopFuel_pos items maxSize hm (items.length + 1) 0 (by omega)
    simpa using this
  · intro hm hne
    refine ⟨?_, ?_⟩
    · by_cases h : minSize ≤ 0
      · exact Or.inl h
      · exact Or.inr (by omega)
    · intro fuel
      exact seqLoopFuel_none_of_nonpos items maxSize hm hne fuel 0 le_rfl

/-! ## Balanced chunking (claim C6) -/

theorem takeChunks_succ (g base rem : Nat) (items : List String) :
    takeChunks (g + 1) base rem items =
      items.take (base + (if 0 < rem then 1 else 0)) ::
        takeChunks g base (rem - 1) (items.drop (base + (if 0 < rem then 1 else 0))) := rfl

theorem takeChunks_join :
    ∀ (g base rem : Nat) (items : List String), items.length = g * base + min g rem →
      (takeChunks g base rem items).flatten = items := by
  intro g
  induction g with
  | zero =>
    intro base rem items hlen
    simp only [Nat.zero_mul, Nat.zero_add, Nat.zero_min] at hlen
    simp [takeChunks, List.eq_nil_of_length_eq_zero hlen]
  | succ g ih =>
    intro base rem items hlen
    have hmul : (g + 1) * base = g * base + base := by ring
    rw [takeChunks_succ, List.flatten_cons]
    rcases Nat.eq_zero_or_pos rem with hr | hr
    · subst hr
      rw [if_neg (by omega), Nat.add_zero] at *
      have hrest : (items.drop base).length = g * base + min g (0 - 1) := by
        have hmin : min g (0 - 1) = 0 := by omega
        rw [hmin]
        simp only [List.length_drop]
        simp only [Nat.min_zero] at hlen
        omega
      rw [ih base (0 - 1) (items.drop base) hrest, List.take_append_drop]
    · obtain ⟨r, rfl⟩ : ∃ r, rem = r + 1 := ⟨rem - 1, by omega⟩
      rw [if_pos hr]
      have hmin1 : min (g + 1) (r + 1) = min g r + 1 := by omega
      rw [hmin1] at hlen
      have hrest : (items.drop (base + 1)).length = g * base + min g (r + 1 - 1) := by
        have hmin2 : min g (r + 1 - 1) = min g r := by omega
        rw [hmin2]
        simp only [List.length_drop]
        omega
      rw [ih base (r + 1 - 1) (items.drop (base + 1)) hrest, List.take_append_drop]

theorem takeChunks_map_length :
    ∀ (g base rem : Nat) (items : List String), g * base + min g rem ≤ items.length →
      (takeChunks g base rem items).map List.length =
        (List.range g).map (fun i => base + if i < rem then 1 else 0) := by
  intro g
  induction g with
  | zero => intro base rem items _; simp [takeChunks]
  | succ g ih =>
    intro base rem items hlen
    have hmul : (g + 1) * base = g * base + base := by ring
    rw [takeChunks_succ, List.map_cons]
    have hsize_le : base + (if 0 < rem then 1 else 0) ≤ items.length := by
      rcases Nat.eq_zero_or_pos rem with hr | hr
      · subst hr
        rw [if_neg (by omega)]
        simp only [Nat.min_zero] at hlen
        omega
      · rw [if_pos hr]
        have h1 : 1 ≤ min (g + 1) rem := by omega
        omega
    have hrest : g * base + min g (rem - 1) ≤
        (items.drop (base + (if 0 < rem then 1 else 0))).length := by
      simp only [List.length_drop]
      rcases Nat.eq_zero_or_pos rem with hr | hr
      · subst hr
        rw [if_neg (by omega)]
        simp only [Nat.min_zero] at hlen
        have hmin : min g (0 - 1) = 0 := by omega
        omega
      · rw [if_pos hr]
        have hmin1 : min (g + 1) rem = min g (rem - 1) + 1 := by omega
        omega
    rw [ih base (rem - 1) _ hrest]
    rw [List.range_succ_eq_map, List.map_cons, List.map_map]
    congr 1
    · simp [List.length_take]
      omega
    · apply List.map_congr_left
      intro i _
      simp only [Function.comp]
      congr 1
      by_cases hlt : i < rem - 1
      · rw [if_pos hlt, if_pos (by omega)]
      · rw [if_neg hlt, if_neg (by omega)]

/-- Each chunk of the balanced split stays within the hard cap: the ceiling
group count makes `base + 1 <= maxN` whenever a remainder exists, and
`base <= maxN` always. -/
theorem ceil_group_bounds (n maxN : Nat) (hm : 1 ≤ maxN) (hn : 1 ≤ n) :
    1 ≤ (n + maxN - 1) / maxN ∧ n ≤ maxN * ((n + maxN - 1) / maxN) := by
  constructor
  · rw [Nat.one_le_div_iff (by omega)]
    omega
  · have dm := Nat.div_add_mod (n + maxN - 1) maxN
    have hr : (n + maxN - 1) % maxN < maxN := Nat.mod_lt _ (by omega)
    set q := (n + maxN - 1) / maxN
    set r := (n + maxN - 1) % maxN
    have : maxN * q = n + maxN - 1 - r := by omega
    have hq : maxN * q ≥ n := by omega
    exact hq

/-- The even-split sizes respect the hard cap when the group count is the
ceiling division: the base size never exceeds `maxN`, and neither does
`base + 1` while a remainder is being distributed. -/
theorem base_size_bounds (n maxN : Nat) (hm : 1 ≤ maxN) (hn : 1 ≤ n) :
    n / ((n + maxN - 1) / maxN) ≤ maxN ∧
      (0 < n % ((n + maxN - 1) / maxN) → n / ((n + maxN - 1) / maxN) + 1 ≤ maxN) := by
  obtain ⟨hg1, hub⟩ := ceil_group_bounds n maxN hm hn
  set g := (n + maxN - 1) / maxN with hg
  set B := n / g with hB
  set R := n % g with hR
  have dm : g * B + R = n := Nat.div_add_mod n g
  constructor
  · by_contra hcon
    push_neg at hcon
    have h1 : g * (maxN + 1) ≤ g * B := Nat.mul_le_mul le_rfl (by omega)
    have h2 : g * (maxN + 1) = g * maxN + g := by ring
    have h3 : maxN * g = g * maxN := Nat.mul_comm _ _
    rw [h3] at hub
    set P := g * B
    set Q := g * maxN
    omega
  · intro hRpos
    by_contra hcon
    push_neg at hcon
    have h1 : g * maxN ≤ g * B := Nat.mul_le_mul le_rfl (by omega)
    have h3 : maxN * g = g * maxN := Nat.mul_comm _ _
    rw [h3] at hub
    set P := g * B
    set Q := g * maxN
    omega

/-- Claim C6: for `maxSize >= 1`, `splitIntoBalancedChunks` concatenates
back to the input in order and never emits a chunk above `maxSize`; with
`0 < minSize <= maxSize` it returns exactly `ceil(n/maxSize)` chunks whose
sizes are the even split `floor(n/numGroups)` with the remainder handed
one-each to the first chunks; with non-positive `minSize` or
`minSize > maxSize` it degenerates to sequential chunking by `maxSize`. -/
theorem claim_C6_balanced_chunking (items : List String) (minSize maxSize : Int)
    (hm : 1 ≤ maxSize) :
    (splitIntoBalancedChunks items minSize maxSize).flatten = items ∧
    (∀ c ∈ splitIntoBalancedChunks items minSize maxSize, (c.length : Int) ≤ maxSize) ∧
    (0 < minSize → minSize ≤ maxSize →
      (splitIntoBalancedChunks items minSize maxSize).length =
        (items.length + maxSize.toNat - 1) / maxSize.toNat ∧
      (splitIntoBalancedChunks items minSize maxSize).map List.length =
        (List.range (splitIntoBalancedChunks items minSize maxSize).length).map (fun i =>
          items.length / (if (items.length + maxSize.toNat - 1) / maxSize.toNat = 0 then 1
            else (items.length + maxSize.toNat - 1) / maxSize.toNat) +
          if i < items.length % (if (items.length + maxSize.toNat - 1) / maxSize.toNat = 0 then 1
            else (items.length + maxSize.toNat - 1) / maxSize.toNat) then 1 else 0)) ∧
    ((minSize ≤ 0 ∨ maxSize < minSize) →
      splitIntoBalancedChunks items minSize maxSize = chunkSeq items maxSize) := by
  have hmN : 1 ≤ maxSize.toNat := by omega
  have hcast : maxSize = (maxSize.toNat : Int) := (Int.toNat_of_nonneg (by omega)).symm
  by_cases hnil : items.length = 0
  · have hitems : items = [] := List.eq_nil_of_length_eq_zero hnil
    subst hitems
    have hsplit : splitIntoBalancedChunks [] minSize maxSize = [] := by
      simp [splitIntoBalancedChunks]
    refine ⟨by simp [hsplit], by simp [hsplit], ?_, ?_⟩
    · intro _ _
      have hceil : (List.length ([] : List String) + maxSize.toNat - 1) / maxSize.toNat = 0 :=
        Nat.div_eq_of_lt (by simp; omega)
      constructor
      · rw [hsplit, hceil]
        rfl
      · rw [hsplit]
        simp
    · intro _
      rw [hsplit]
      simp only [chunkSeq, if_neg (by omega : ¬ maxSize ≤ 0)]
      rfl
  · by_cases hdeg : minSize ≤ 0 ∨ maxSize < minSize
    · have hsplit : splitIntoBalancedChunks items minSize maxSize = chunkSeq items maxSize := by
        unfold splitIntoBalancedChunks
        rw [if_neg hnil, if_pos hdeg]
      have hseq : chunkSeq items maxSize = chunkSeqGo maxSize.toNat items.length items := by
        simp only [chunkSeq, if_neg (by omega : ¬ maxSize ≤ 0)]
      refine ⟨?_, ?_, ?_, fun _ => hsplit⟩
      · rw [hsplit, hseq]
        exact chunkSeqGo_join _ _ _ le_rfl
      · intro c hc
        rw [hsplit, hseq] at hc
        have := chunkSeqGo_mem_length _ hmN _ _ _ hc
        rw [hcast]
        exact_mod_cast this
      · intro h1 h2
        exfalso
        rcases hdeg with h | h <;> omega
    · push_neg at hdeg
      obtain ⟨hms1, hms2⟩ := hdeg
      have hn : 1 ≤ items.length := by omega
      obtain ⟨hg1, hub⟩ := ceil_group_bounds items.length maxSize.toNat hmN hn
      set g0 := (items.length + maxSize.toNat - 1) / maxSize.toNat with hg0
      have hgif : (if g0 = 0 then 1 else g0) = g0 := by rw [if_neg (by omega)]
      have hsplit : splitIntoBalancedChunks items minSize maxSize =
          takeChunks g0 (items.length / g0) (items.length % g0) items := by
        unfold splitIntoBalancedChunks
        rw [if_neg hnil, if_neg (by push_neg; exact ⟨by omega, by omega⟩)]
        simp only [← hg0, hgif]
      have hdm : g0 * (items.length / g0) + items.length % g0 = items.length :=
        Nat.div_add_mod _ _
      have hmodlt : items.length % g0 < g0 := Nat.mod_lt _ (by omega)
      have hminr : min g0 (items.length % g0) = items.length % g0 := by omega
      have hlen_eq : items.length =
          g0 * (items.length / g0) + min g0 (items.length % g0) := by omega
      have hmap := takeChunks_map_length g0 (items.length / g0) (items.length % g0) items
        (by omega)
      have hchlen : (takeChunks g0 (items.length / g0) (items.length % g0) items).length = g0 := by
        have := congrArg List.length hmap
        simpa using this
      obtain ⟨hbase, hbase1⟩ := base_size_bounds items.length maxSize.toNat hmN hn
      rw [← hg0] at hbase hbase1
      refine ⟨?_, ?_, ?_, ?_⟩
      · rw [hsplit]
        exact takeChunks_join _ _ _ _ hlen_eq
      · intro c hc
        rw [hsplit] at hc
        have hmem : c.length ∈ (takeChunks g0 (items.length / g0) (items.length % g0) items).map
            List.length := List.mem_map_of_mem _ hc
        rw [hmap] at hmem
        obtain ⟨i, _, hi⟩ := List.mem_map.mp hmem
        rw [hcast]
        by_cases hit : i < items.length % g0
        · rw [if_pos hit] at hi
          have : c.length ≤ maxSize.toNat := by
            rw [← hi]
            exact hbase1 (by omega)
          exact_mod_cast this
        · rw [if_neg hit] at hi
          have : c.length ≤ maxSize.toNat := by omega
          exact_mod_cast this
      · intro _ _
        refine ⟨by rw [hsplit, hchlen], ?_⟩
        rw [hsplit, hchlen, hmap]
        simp only [hgif]
      · intro h
        exfalso
        rcases h with h | h <;> omega

/-- Witness for C6 at a concrete input: five items, `minSize = 2`,
`maxSize = 3` give two chunks of sizes 3 and 2 (`ceil(5/3) = 2`). -/
theorem claim_C6_witness :
    (1 : Int) ≤ 3 ∧
      (splitIntoBalancedChunks ["a", "b", "c", "d", "e"] 2 3).flatten =
        ["a", "b", "c", "d", "e"] ∧
      (splitIntoBalancedChunks ["a", "b", "c", "d", "e"] 2 3).map List.length = [3, 2] := by
  have h := claim_C6_balanced_chunking ["a", "b", "c", "d", "e"] 2 3 (by norm_num)
  refine ⟨by norm_num, h.1, ?_⟩
  have h2 := (h.2.2.1 (by norm_num) (by norm_num)).2
  rw [h2]
  decide

/-! ## Structural lemmas shared by the block-invariant claims -/

theorem findInst_eq_some (I : List SubjectInstance) (eid : InstId) (i : SubjectInstance)
    (h : findInst I eid = some i) : i ∈ I ∧ i.id = eid := by
  refine ⟨List.mem_of_find?_eq_some h, ?_⟩
  have := List.find?_some h
  simpa using this

theorem findInst_isSome_of_mem (I : List SubjectInstance) (inst : SubjectInstance)
    (h : inst ∈ I) : ∃ j, findInst I inst.id = some j := by
  have : (I.find? (fun i => decide (i.id = inst.id))).isSome :=
    List.find?_isSome.mpr ⟨inst, h, by simp⟩
  exact Option.isSome_iff_exists.mp this

theorem insertDesc_perm (ref : List SubjectInstance) (x : SubjectInstance) :
    ∀ l, List.Perm (insertDesc ref x l) (x :: l) := by
  intro l
  induction l with
  | nil => exact List.Perm.refl _
  | cons y ys ih =>
    simp only [insertDesc]
    by_cases h : degreeOf ref y < degreeOf ref x
    · rw [if_pos h]
    · rw [if_neg h]
      exact List.Perm.trans (List.Perm.cons y ih) (List.Perm.swap x y ys)

theorem sortFold_perm (ref : List SubjectInstance) :
    ∀ (l acc : List SubjectInstance),
      List.Perm (l.foldl (fun acc x => insertDesc ref x acc) acc) (l ++ acc) := by
  intro l
  induction l with
  | nil => intro acc; simp
  | cons x xs ih =>
    intro acc
    simp only [List.foldl_cons, List.cons_append]
    refine List.Perm.trans (ih (insertDesc ref x acc)) ?_
    refine List.Perm.trans (List.Perm.append_left xs (insertDesc_perm ref x acc)) ?_
    exact List.perm_middle

theorem sortByDegree_perm (ref l : List SubjectInstance) :
    List.Perm (sortByDegree ref l) l := by
  have := sortFold_perm ref l []
  simpa [sortByDegree] using this

theorem mem_schedInstances (classes : List ClassRoom) (students : List Student)
    (metas : List SubjectMeta) (minSize : Int) (inst : SubjectInstance) :
    inst ∈ schedInstances classes students metas minSize ↔
      inst ∈ buildInstances classes students metas minSize := by
  unfold schedInstances
  exact (sortByDegree_perm _ _).mem_iff

/-- In every created instance the purity flag agrees with the shape of the
group tag: pure instances carry a homeroom tag, mixed instances a numeric
chunk tag. -/
theorem buildInstances_pure_tag (classes : List ClassRoom) (students : List Student)
    (metas : List SubjectMeta) (minSize : Int) (inst : SubjectInstance)
    (h : inst ∈ buildInstances classes students metas minSize) :
    (inst.isPure = true ↔ ∃ cls, inst.id.group = .homeroom cls) := by
  simp only [buildInstances, List.mem_flatMap] at h
  obtain ⟨code, _, hinst⟩ := h
  simp only [instancesForCode, List.mem_append, List.mem_flatMap, List.mem_map] at hinst
  rcases hinst with ⟨e, _, c, _, hmk⟩ | ⟨p, _, c, _, hmk⟩
  · rw [← hmk]
    simp [mkInstance]
  · rw [← hmk]
    simp [mkInstance]

theorem schedInstances_pure_tag (classes : List ClassRoom) (students : List Student)
    (metas : List SubjectMeta) (minSize : Int) (inst : SubjectInstance)
    (h : inst ∈ schedInstances classes students metas minSize) :
    (inst.isPure = true ↔ ∃ cls, inst.id.group = .homeroom cls) :=
  buildInstances_pure_tag classes students metas minSize inst
    ((mem_schedInstances classes students metas minSize inst).mp h)

/-- Purity-tag coherence of an instance list, as established for
`schedInstances` above; the block-shape arguments below only need this
abstract property. -/
def PureTagCoherent (I : List SubjectInstance) : Prop :=
  ∀ i ∈ I, (i.isPure = true ↔ ∃ cls, i.id.group = .homeroom cls)

theorem isPureId_false_of_mixed_shape (I : List SubjectInstance) (hI : PureTagCoherent I)
    (eid : InstId) (gi : Nat) (hshape : eid.group = .mixed gi) :
    isPureId I eid = false := by
  cases hfind : findInst I eid with
  | none => simp [isPureId, hfind]
  | some i =>
    obtain ⟨hmem, hid⟩ := findInst_eq_some I eid i hfind
    simp only [isPureId, hfind]
    cases hb : i.isPure
    · rfl
    · obtain ⟨cls, hcls⟩ := (hI i hmem).mp hb
      rw [hid, hshape] at hcls
      exact GroupTag.noConfusion hcls

theorem isPureId_true_of_pure_mem (I : List SubjectInstance) (hI : PureTagCoherent I)
    (inst : SubjectInstance) (hmem : inst ∈ I) (hpure : inst.isPure = true) :
    isPureId I inst.id = true := by
  obtain ⟨j, hj⟩ := findInst_isSome_of_mem I inst hmem
  obtain ⟨hjmem, hjid⟩ := findInst_eq_some I inst.id j hj
  obtain ⟨cls, hcls⟩ := (hI inst hmem).mp hpure
  unfold isPureId
  rw [hj]
  exact (hI j hjmem).mpr ⟨cls, by rw [hjid]; exact hcls⟩

/-- Index of the first feasible block, the way the amended claim C1
describes the `min-space` fallback (spec-side formulation, to be compared
with the source's in-place scan `placeFirstFit`). -/
def feasibleIdx (inst : SubjectInstance) (instances : List SubjectInstance)
    (metas : List SubjectMeta) : List ScheduleBlock → Option Nat
  | [] => none
  | b :: bs =>
    if canFitInBlock inst b instances metas then some 0
    else (feasibleIdx inst instances metas bs).map (fun k => k + 1)

/-- Spec-side first-fit step: put the instance into the first feasible
block, appending a fresh singleton block only when no block is feasible. -/
def firstFitSpecStep (instances : List SubjectInstance) (metas : List SubjectMeta)
    (blocks : List ScheduleBlock) (inst : SubjectInstance) : List ScheduleBlock :=
  match feasibleIdx inst instances metas blocks with
  | some k =>
    match blocks[k]? with
    | some b => blocks.set k (addToBlock b inst)
    | none => blocks
  | none => blocks ++ [⟨(blocks.length : Int) + 1, [inst.id]⟩]

theorem placeFirstFit_characterization (inst : SubjectInstance)
    (instances : List SubjectInstance) (metas : List SubjectMeta) :
    ∀ blocks : List ScheduleBlock,
      (placeFirstFit inst instances metas blocks = none ∧
        feasibleIdx inst instances metas blocks = none) ∨
      (∃ k b, feasibleIdx inst instances metas blocks = some k ∧ blocks[k]? = some b ∧
        placeFirstFit inst instances metas blocks = some (blocks.set k (addToBlock b inst))) := by
  intro blocks
  induction blocks with
  | nil => exact Or.inl ⟨rfl, rfl⟩
  | cons b bs ih =>
    by_cases hfit : canFitInBlock inst b instances metas
    · refine Or.inr ⟨0, b, ?_, by simp, ?_⟩
      · simp [feasibleIdx, hfit]
      · simp [placeFirstFit, hfit]
    · rcases ih with ⟨hp, hf⟩ | ⟨k, b2, hf, hget, hp⟩
      · refine Or.inl ⟨?_, ?_⟩
        · simp [placeFirstFit, hfit, hp]
        · simp [feasibleIdx, hfit, hf]
      · refine Or.inr ⟨k + 1, b2, ?_, ?_, ?_⟩
        · simp [feasibleIdx, hfit, hf]
        · simpa using hget
        · simp [placeFirstFit, hfit, hp]

theorem pickBest_spec (inst : SubjectInstance) (I : List SubjectInstance)
    (metas : List SubjectMeta) (sb : StudentBlocks) (blocks : List ScheduleBlock)
    (q : Nat × ScheduleBlock × Int) (h : pickBest inst I metas sb blocks = some q) :
    blocks[q.1]? = some q.2.1 ∧ canFitInBlock inst q.2.1 I metas = true := by
  unfold pickBest at h
  suffices hgen : ∀ (l : List (Nat × ScheduleBlock)) (acc : Option (Nat × ScheduleBlock × Int)),
      (∀ p ∈ l, blocks[p.1]? = some p.2) →
      (∀ q2, acc = some q2 →
        blocks[q2.1]? = some q2.2.1 ∧ canFitInBlock inst q2.2.1 I metas = true) →
      ∀ q2, l.foldl (fun best p =>
          if canFitInBlock inst p.2 I metas then
            let cost := calculateGapCost inst p.2.id sb
            match best with
            | none => some (p.1, p.2, cost)
            | some q3 => if cost < q3.2.2 then some (p.1, p.2, cost) else some q3
          else best) acc = some q2 →
        blocks[q2.1]? = some q2.2.1 ∧ canFitInBlock inst q2.2.1 I metas = true by
    exact hgen blocks.enum none
      (fun p hp => List.mem_enum_iff_getElem?.mp hp)
      (fun q2 hq2 => by simp at hq2) q h
  intro l
  induction l with
  | nil => intro acc _ hacc q2 h2; exact hacc q2 h2
  | cons p ps ih =>
    intro acc hl hacc q2 h2
    simp only [List.foldl_cons] at h2
    refine ih _ (fun r hr => hl r (List.mem_cons_of_mem _ hr)) ?_ q2 h2
    intro q3
    by_cases hfit : canFitInBlock inst p.2 I metas
    · rw [if_pos hfit]
      cases acc with
      | none =>
        intro hq3
        simp only [Option.some.injEq] at hq3
        rw [← hq3]
        exact ⟨hl p (List.mem_cons_self _ _), hfit⟩
      | some q4 =>
        by_cases hcost : calculateGapCost inst p.2.id sb < q4.2.2
        · intro hq3
          simp only [if_pos hcost, Option.some.injEq] at hq3
          rw [← hq3]
          exact ⟨hl p (List.mem_cons_self _ _), hfit⟩
        · intro hq3
          simp only [if_neg hcost, Option.some.injEq] at hq3
          rw [← hq3]
          exact hacc q4 rfl
    · rw [if_neg hfit]
      intro hq3
      exact hacc q3 hq3

theorem feasibleIdx_spec (inst : SubjectInstance) (I : List SubjectInstance)
    (metas : List SubjectMeta) :
    ∀ (blocks : List ScheduleBlock) (k : Nat), feasibleIdx inst I metas blocks = some k →
      ∃ b, blocks[k]? = some b ∧ canFitInBlock inst b I metas = true := by
  intro blocks
  induction blocks with
  | nil => intro k h; simp [feasibleIdx] at h
  | cons b bs ih =>
    intro k h
    simp only [feasibleIdx] at h
    by_cases hfit : canFitInBlock inst b I metas
    · rw [if_pos hfit] at h
      cases h
      exact ⟨b, by simp, hfit⟩
    · rw [if_neg hfit] at h
      cases hfk : feasibleIdx inst I metas bs with
      | none => rw [hfk] at h; simp at h
      | some k2 =>
        rw [hfk] at h
        have hk : k2 + 1 = k := by simpa using h
        subst hk
        obtain ⟨b2, hb2, hfit2⟩ := ih k2 hfk
        exact ⟨b2, by simpa using hb2, hfit2⟩

/-- Case analysis of one Policy A step: the instance either opens a new
block at the end or joins the feasibility-checked best block in place. -/
theorem minBlocksStep_cases (I : List SubjectInstance) (metas : List SubjectMeta)
    (st : List ScheduleBlock × StudentBlocks) (inst : SubjectInstance) :
    (minBlocksStep I metas st inst).1 =
        st.1 ++ [⟨(st.1.length : Int) + 1, [inst.id]⟩] ∨
      ∃ q : Nat × ScheduleBlock × Int,
        canFitInBlock inst q.2.1 I metas = true ∧ st.1[q.1]? = some q.2.1 ∧
        (minBlocksStep I metas st inst).1 = st.1.set q.1 (addToBlock q.2.1 inst) := by
  simp only [minBlocksStep]
  cases hpick : pickBest inst I metas st.2 st.1 with
  | none => exact Or.inl rfl
  | some q =>
    by_cases hcost : calculateGapCost inst ((st.1.length : Int) + 1) st.2 < q.2.2
    · left
      simp only [if_pos hcost]
    · right
      obtain ⟨hget, hfitq⟩ := pickBest_spec inst I metas st.2 st.1 q hpick
      exact ⟨q, hfitq, hget, by simp only [if_neg hcost]⟩

/-- Case analysis of one `min-space` step: first fit or a new block. -/
theorem minSpaceStep_cases (I : List SubjectInstance) (metas : List SubjectMeta)
    (blocks : List ScheduleBlock) (inst : SubjectInstance) :
    minSpaceStep I metas blocks inst =
        blocks ++ [⟨(blocks.length : Int) + 1, [inst.id]⟩] ∨
      ∃ (k : Nat) (b : ScheduleBlock),
        canFitInBlock inst b I metas = true ∧ blocks[k]? = some b ∧
        minSpaceStep I metas blocks inst = blocks.set k (addToBlock b inst) := by
  unfold minSpaceStep
  rcases placeFirstFit_characterization inst I metas blocks with
    ⟨hp, _⟩ | ⟨k, bk, hf, hget, hp⟩
  · rw [hp]
    exact Or.inl rfl
  · rw [hp]
    right
    obtain ⟨bk2, hbk2, hfitk⟩ := feasibleIdx_spec inst I metas blocks k hf
    have hbkeq : bk2 = bk := by
      rw [hget] at hbk2
      exact (Option.some.inj hbk2.symm)
    subst hbkeq
    exact ⟨k, bk2, hfitk, hget, rfl⟩

/-- Generic invariant of the mixed-placement folds: any per-block property
of the subject lists that survives a feasibility-checked append and holds
for a fresh singleton block holds for every produced block, under either
policy. -/
theorem scheduleMixed_inv (opt : ScheduleOption) (I : List SubjectInstance)
    (metas : List SubjectMeta) (P : List InstId → Prop)
    (L : List SubjectInstance)
    (hfit : ∀ inst ∈ L, ∀ b : ScheduleBlock, canFitInBlock inst b I metas = true →
      P b.subjects → P (b.subjects ++ [inst.id]))
    (hnew : ∀ inst ∈ L, P [inst.id]) :
    ∀ b ∈ scheduleMixed opt I metas L, P b.subjects := by
  cases opt with
  | minBlocks =>
    suffices hgen : ∀ (M : List SubjectInstance)
        (hfitM : ∀ inst ∈ M, ∀ b : ScheduleBlock, canFitInBlock inst b I metas = true →
          P b.subjects → P (b.subjects ++ [inst.id]))
        (hnewM : ∀ inst ∈ M, P [inst.id])
        (st : List ScheduleBlock × StudentBlocks),
        (∀ b ∈ st.1, P b.subjects) →
        ∀ b ∈ (M.foldl (minBlocksStep I metas) st).1, P b.subjects by
      intro b hb
      exact hgen L hfit hnew ([], []) (by simp) b hb
    intro M
    induction M with
    | nil => intro _ _ st hst b hb; exact hst b hb
    | cons inst M ih =>
      intro hfitM hnewM st hst b hb
      simp only [List.foldl_cons] at hb
      refine ih (fun i hi => hfitM i (List.mem_cons_of_mem _ hi))
        (fun i hi => hnewM i (List.mem_cons_of_mem _ hi)) _ ?_ b hb
      intro b2 hb2
      rcases minBlocksStep_cases I metas st inst with heq | ⟨q, hfitq, hget, heq⟩
      · rw [heq] at hb2
        rcases List.mem_append.mp hb2 with h | h
        · exact hst b2 h
        · simp only [List.mem_singleton] at h
          subst h
          exact hnewM inst (List.mem_cons_self _ _)
      · rw [heq] at hb2
        rcases List.mem_or_eq_of_mem_set hb2 with h | h
        · exact hst b2 h
        · subst h
          exact hfitM inst (List.mem_cons_self _ _) q.2.1 hfitq
            (hst q.2.1 (List.getElem?_mem hget))
  | minSpace =>
    suffices hgen : ∀ (M : List SubjectInstance)
        (hfitM : ∀ inst ∈ M, ∀ b : ScheduleBlock, canFitInBlock inst b I metas = true →
          P b.subjects → P (b.subjects ++ [inst.id]))
        (hnewM : ∀ inst ∈ M, P [inst.id])
        (blocks : List ScheduleBlock),
        (∀ b ∈ blocks, P b.subjects) →
        ∀ b ∈ M.foldl (minSpaceStep I metas) blocks, P b.subjects by
      intro b hb
      exact hgen L hfit hnew [] (by simp) b hb
    intro M
    induction M with
    | nil => intro _ _ blocks hst b hb; exact hst b hb
    | cons inst M ih =>
      intro hfitM hnewM blocks hst b hb
      simp only [List.foldl_cons] at hb
      refine ih (fun i hi => hfitM i (List.mem_cons_of_mem _ hi))
        (fun i hi => hnewM i (List.mem_cons_of_mem _ hi)) _ ?_ b hb
      intro b2 hb2
      rcases minSpaceStep_cases I metas blocks inst with heq | ⟨k, bk, hfitk, hget, heq⟩
      · rw [heq] at hb2
        rcases List.mem_append.mp hb2 with h | h
        · exact hst b2 h
        · simp only [List.mem_singleton] at h
          subst h
          exact hnewM inst (List.mem_cons_self _ _)
      · rw [heq] at hb2
        rcases List.mem_or_eq_of_mem_set hb2 with h | h
        · exact hst b2 h
        · subst h
          exact hfitM inst (List.mem_cons_self _ _) bk hfitk
            (hst bk (List.getElem?_mem hget))

/-- The singleton blocks appended for the pure instances, with their fresh
ids counting on from `n`. -/
def pureSingles (n : Int) : List SubjectInstance → List ScheduleBlock
  | [] => []
  | i :: L => ⟨n + 1, [i.id]⟩ :: pureSingles (n + 1) L

theorem addPureBlocks_eq :
    ∀ (L : List SubjectInstance) (blocks : List ScheduleBlock),
      addPureBlocks blocks L = blocks ++ pureSingles (blocks.length : Int) L := by
  intro L
  induction L with
  | nil => intro blocks; simp [addPureBlocks, pureSingles]
  | cons i L ih =>
    intro blocks
    have hstep : addPureBlocks blocks (i :: L) =
        addPureBlocks (blocks ++ [⟨(blocks.length : Int) + 1, [i.id]⟩]) L := rfl
    rw [hstep, ih]
    have hlen : (((blocks ++ [(⟨(blocks.length : Int) + 1, [i.id]⟩ : ScheduleBlock)]).length : Int)) =
        (blocks.length : Int) + 1 := by
      simp
    rw [hlen]
    simp [pureSingles, List.append_assoc]

theorem mem_pureSingles :
    ∀ (L : List SubjectInstance) (n : Int) (b : ScheduleBlock), b ∈ pureSingles n L →
      ∃ inst ∈ L, b.subjects = [inst.id] := by
  intro L
  induction L with
  | nil => intro n b h; simp [pureSingles] at h
  | cons i L ih =>
    intro n b h
    simp only [pureSingles, List.mem_cons] at h
    rcases h with h | h
    · exact ⟨i, List.mem_cons_self _ _, by rw [h]⟩
    · obtain ⟨inst, hmem, hs⟩ := ih (n + 1) b h
      exact ⟨inst, List.mem_cons_of_mem _ hmem, hs⟩

theorem findPartner_spec (I : List SubjectInstance) (metas : List SubjectMeta)
    (b : ScheduleBlock) :
    ∀ (bs : List ScheduleBlock) (k : Nat) (b2 : ScheduleBlock),
      findPartner I metas b bs = some (k, b2) →
      bs[k]? = some b2 ∧ canMerge b b2 I metas = true := by
  intro bs
  induction bs with
  | nil => intro k b2 h; simp [findPartner] at h
  | cons b0 rest ih =>
    intro k b2 h
    simp only [findPartner] at h
    by_cases hm : canMerge b b0 I metas
    · rw [if_pos hm] at h
      cases h
      exact ⟨by simp, hm⟩
    · rw [if_neg hm] at h
      cases hp : findPartner I metas b rest with
      | none => rw [hp] at h; simp at h
      | some p =>
        rw [hp] at h
        simp only at h
        cases h
        obtain ⟨hget, hcm⟩ := ih p.1 p.2 (by rw [hp])
        exact ⟨by simpa using hget, hcm⟩

theorem findMergePair_spec (I : List SubjectInstance) (metas : List SubjectMeta) :
    ∀ (blocks : List ScheduleBlock) (q : Nat × Nat × ScheduleBlock × ScheduleBlock),
      findMergePair I metas blocks = some q →
      blocks[q.1]? = some q.2.2.1 ∧ blocks[q.2.1]? = some q.2.2.2 ∧ q.1 < q.2.1 ∧
        canMerge q.2.2.1 q.2.2.2 I metas = true := by
  intro blocks
  induction blocks with
  | nil => intro q h; simp [findMergePair] at h
  | cons b bs ih =>
    intro q h
    simp only [findMergePair] at h
    cases hp : findPartner I metas b bs with
    | some p =>
      rw [hp] at h
      simp only at h
      cases h
      obtain ⟨hget, hcm⟩ := findPartner_spec I metas b bs p.1 p.2 (by rw [hp])
      exact ⟨by simp, by simpa using hget, Nat.succ_pos p.1, hcm⟩
    | none =>
      rw [hp] at h
      cases hq : findMergePair I metas bs with
      | none => rw [hq] at h; simp at h
      | some q2 =>
        rw [hq] at h
        simp only at h
        cases h
        obtain ⟨h1, h2, h3, h4⟩ := ih q2 hq
        exact ⟨by simpa using h1, by simpa using h2, Nat.succ_lt_succ h3, h4⟩

/-- Generic invariant of the merge fixed-point loop: a per-block property
closed under merging a `canMerge`-compatible pair holds for every block of
the loop's result. -/
theorem mergeLoop_inv (I : List SubjectInstance) (metas : List SubjectMeta)
    (P : List InstId → Prop)
    (hmerge : ∀ b1 b2 : ScheduleBlock, canMerge b1 b2 I metas = true →
      P b1.subjects → P b2.subjects → P (b1.subjects ++ b2.subjects)) :
    ∀ (fuel : Nat) (blocks : List ScheduleBlock),
      (∀ b ∈ blocks, P b.subjects) → ∀ b ∈ mergeLoop I metas fuel blocks, P b.subjects := by
  intro fuel
  induction fuel with
  | zero => intro blocks h b hb; exact h b hb
  | succ fuel ih =>
    intro blocks h b hb
    simp only [mergeLoop] at hb
    cases hq : findMergePair I metas blocks with
    | none => rw [hq] at hb; exact h b hb
    | some q =>
      rw [hq] at hb
      replace hb : b ∈ mergeLoop I metas fuel
          (applyMerge blocks q.1 q.2.1 q.2.2.1 q.2.2.2) := hb
      obtain ⟨hg1, hg2, hlt, hcm⟩ := findMergePair_spec I metas blocks q hq
      refine ih _ ?_ b hb
      intro b2 hb2
      have happ : applyMerge blocks q.1 q.2.1 q.2.2.1 q.2.2.2 =
          (blocks.set q.1
            ⟨q.2.2.1.id, q.2.2.1.subjects ++ q.2.2.2.subjects⟩).eraseIdx q.2.1 := by
        simp only [applyMerge, hg1, hg2]
      rw [happ] at hb2
      have hb3 : b2 ∈ (blocks.set q.1
          ⟨q.2.2.1.id, q.2.2.1.subjects ++ q.2.2.2.subjects⟩) :=
        (List.eraseIdx_sublist _ q.2.1).mem hb2
      rcases List.mem_or_eq_of_mem_set hb3 with h2 | h2
      · exact h b2 h2
      · subst h2
        exact hmerge q.2.2.1 q.2.2.2 hcm
          (h _ (List.getElem?_mem hg1)) (h _ (List.getElem?_mem hg2))

theorem swapList_mem {α : Type} (l : List α) (i j : Nat) (x : α)
    (h : x ∈ swapList l i j) : x ∈ l := by
  unfold swapList at h
  cases hi : l[i]? with
  | none => rw [hi] at h; exact h
  | some a =>
    cases hj : l[j]? with
    | none => rw [hi, hj] at h; exact h
    | some b =>
      rw [hi, hj] at h
      rcases List.mem_or_eq_of_mem_set h with h2 | h2
      · rcases List.mem_or_eq_of_mem_set h2 with h3 | h3
        · exact h3
        · subst h3; exact List.getElem?_mem hj
      · subst h2; exact List.getElem?_mem hi

theorem optimize_mem (entries : List (InstId × List String)) (blocks : List ScheduleBlock)
    (draws : List (Nat × Nat)) (b : ScheduleBlock)
    (h : b ∈ optimizeBlockSequence entries blocks draws) : b ∈ blocks := by
  unfold optimizeBlockSequence at h
  suffices hgen : ∀ (ds : List (Nat × Nat)) (st : List ScheduleBlock × Int),
      (∀ x ∈ st.1, x ∈ blocks) → ∀ x ∈ (ds.foldl (optStep entries) st).1, x ∈ blocks by
    exact hgen draws (blocks, calculateTotalGapCost blocks entries) (fun x hx => hx) b h
  intro ds
  induction ds with
  | nil => intro st hst x hx; exact hst x hx
  | cons d ds ih =>
    intro st hst x hx
    simp only [List.foldl_cons] at hx
    refine ih _ ?_ x hx
    intro y hy
    unfold optStep at hy
    by_cases h1 : d.1 = d.2
    · rw [if_pos h1] at hy; exact hst y hy
    · rw [if_neg h1] at hy
      by_cases h2 : calculateTotalGapCost (swapList st.1 d.1 d.2) entries < st.2
      · rw [if_pos h2] at hy
        exact hst y (swapList_mem st.1 d.1 d.2 y hy)
      · rw [if_neg h2] at hy
        exact hst y hy

theorem reassignIds_subjects :
    ∀ (l : List ScheduleBlock) (n : Int) (b : ScheduleBlock), b ∈ reassignIds n l →
      ∃ b0 ∈ l, b.subjects = b0.subjects := by
  intro l
  induction l with
  | nil => intro n b h; simp [reassignIds] at h
  | cons b0 bs ih =>
    intro n b h
    simp only [reassignIds, List.mem_cons] at h
    rcases h with h | h
    · exact ⟨b0, List.mem_cons_self _ _, by rw [h]⟩
    · obtain ⟨b1, hb1, hs⟩ := ih (n + 1) b h
      exact ⟨b1, List.mem_cons_of_mem _ hb1, hs⟩

/-! ## Instance-builder structural facts -/

theorem mem_dedupFirstAux {α : Type} [DecidableEq α] (x : α) :
    ∀ (seen l : List α), x ∈ dedupFirstAux seen l → x ∈ l := by
  intro seen l
  induction l generalizing seen with
  | nil => intro h; simp [dedupFirstAux] at h
  | cons y ys ih =>
    intro h
    simp only [dedupFirstAux] at h
    by_cases hy : y ∈ seen
    · rw [if_pos hy] at h
      exact List.mem_cons_of_mem _ (ih _ h)
    · rw [if_neg hy] at h
      rcases List.mem_cons.mp h with h | h
      · exact h ▸ List.mem_cons_self _ _
      · exact List.mem_cons_of_mem _ (ih _ h)

theorem activeCodesInOrder_active (metas : List SubjectMeta) (students : List Student)
    (code : String) (h : code ∈ activeCodesInOrder metas students) :
    activeCode metas students code = true := by
  have h1 := mem_dedupFirstAux code [] _ h
  exact List.of_mem_filter h1

theorem instancesForCode_code (classes : List ClassRoom) (students : List Student)
    (metas : List SubjectMeta) (minSize : Int) (code : String) (inst : SubjectInstance)
    (h : inst ∈ instancesForCode classes students metas minSize code) :
    inst.id.code = code := by
  simp only [instancesForCode, List.mem_append, List.mem_flatMap, List.mem_map] at h
  rcases h with ⟨e, _, c, _, hmk⟩ | ⟨p, _, c, _, hmk⟩ <;> rw [← hmk] <;> rfl

theorem buildInstances_active (classes : List ClassRoom) (students : List Student)
    (metas : List SubjectMeta) (minSize : Int) (inst : SubjectInstance)
    (h : inst ∈ buildInstances classes students metas minSize) :
    activeCode metas students inst.id.code = true := by
  simp only [buildInstances, List.mem_flatMap] at h
  obtain ⟨code, hcode, hinst⟩ := h
  rw [instancesForCode_code _ _ _ _ _ _ hinst]
  exact activeCodesInOrder_active _ _ _ hcode

theorem dedupFirstAux_spec {α : Type} [DecidableEq α] :
    ∀ (l seen : List α),
      (dedupFirstAux seen l).Nodup ∧ ∀ x ∈ dedupFirstAux seen l, x ∉ seen := by
  intro l
  induction l with
  | nil => intro seen; exact ⟨List.nodup_nil, by simp [dedupFirstAux]⟩
  | cons x xs ih =>
    intro seen
    simp only [dedupFirstAux]
    by_cases hx : x ∈ seen
    · rw [if_pos hx]; exact ih seen
    · rw [if_neg hx]
      obtain ⟨hnd, hnotin⟩ := ih (x :: seen)
      refine ⟨List.nodup_cons.mpr ⟨?_, hnd⟩, ?_⟩
      · intro hmem
        exact (hnotin x hmem) (List.mem_cons_self _ _)
      · intro y hy
        rcases List.mem_cons.mp hy with h | h
        · subst h; exact hx
        · intro hseen
          exact hnotin y h (List.mem_cons_of_mem _ hseen)

theorem dedupFirst_nodup {α : Type} [DecidableEq α] (l : List α) : (dedupFirst l).Nodup :=
  (dedupFirstAux_spec l []).1

theorem activeCodesInOrder_nodup (metas : List SubjectMeta) (students : List Student) :
    (activeCodesInOrder metas students).Nodup :=
  dedupFirst_nodup _

theorem pushEntry_keys (k v : String) :
    ∀ m : List (String × List String),
      (pushEntry k v m).map Prod.fst =
        if k ∈ m.map Prod.fst then m.map Prod.fst else m.map Prod.fst ++ [k] := by
  intro m
  induction m with
  | nil => simp [pushEntry]
  | cons e rest ih =>
    simp only [pushEntry]
    by_cases he : e.1 = k
    · rw [if_pos he]
      have : k ∈ (e :: rest).map Prod.fst := by
        simp only [List.map_cons, List.mem_cons]
        exact Or.inl he.symm
      rw [if_pos this]
      simp
    · rw [if_neg he]
      simp only [List.map_cons, ih]
      by_cases hk : k ∈ rest.map Prod.fst
      · rw [if_pos hk, if_pos (by simp [hk])]
      · rw [if_neg hk, if_neg (by
          simp only [List.mem_cons]
          push_neg
          exact ⟨fun h => he h.symm, hk⟩)]
        simp

theorem pushEntry_values_nonempty (k v : String) :
    ∀ m : List (String × List String), (∀ e ∈ m, e.2 ≠ []) →
      ∀ e ∈ pushEntry k v m, e.2 ≠ [] := by
  intro m
  induction m with
  | nil =>
    intro _ e he
    simp only [pushEntry, List.mem_singleton] at he
    subst he
    simp
  | cons e0 rest ih =>
    intro hm e he
    simp only [pushEntry] at he
    by_cases h0 : e0.1 = k
    · rw [if_pos h0] at he
      rcases List.mem_cons.mp he with h | h
      · subst h
        have := hm e0 (List.mem_cons_self _ _)
        simp only [ne_eq]
        intro hcon
        rw [List.append_eq_nil] at hcon
        exact this hcon.1
      · exact hm e (List.mem_cons_of_mem _ h)
    · rw [if_neg h0] at he
      rcases List.mem_cons.mp he with h | h
      · rw [h]; exact hm e0 (List.mem_cons_self _ _)
      · exact ih (fun e2 he2 => hm e2 (List.mem_cons_of_mem _ he2)) e h

theorem homeroomStep_cases (students : List Student) (m : List (String × List String))
    (sid : String) :
    homeroomStep students m sid = m ∨
      ∃ k, homeroomStep students m sid = pushEntry k sid m := by
  unfold homeroomStep
  cases lookupStudent students sid with
  | none => exact Or.inl rfl
  | some s =>
    by_cases hc : hasClass s
    · exact Or.inr ⟨classKey s, if_pos hc⟩
    · exact Or.inl (if_neg hc)

theorem homeroomStep_keys_nodup (students : List Student) (m : List (String × List String))
    (sid : String) (h : (m.map Prod.fst).Nodup) :
    ((homeroomStep students m sid).map Prod.fst).Nodup := by
  rcases homeroomStep_cases students m sid with heq | ⟨k, heq⟩
  · rw [heq]; exact h
  · rw [heq, pushEntry_keys]
    by_cases hk : k ∈ m.map Prod.fst
    · rw [if_pos hk]; exact h
    · rw [if_neg hk]
      rw [List.nodup_append]
      exact ⟨h, List.nodup_singleton _, by
        intro a ha hb
        simp only [List.mem_singleton] at hb
        exact hk (hb ▸ ha)⟩

theorem homeroomStep_values_nonempty (students : List Student)
    (m : List (String × List String)) (sid : String) (h : ∀ e ∈ m, e.2 ≠ []) :
    ∀ e ∈ homeroomStep students m sid, e.2 ≠ [] := by
  rcases homeroomStep_cases students m sid with heq | ⟨k, heq⟩
  · rw [heq]; exact h
  · rw [heq]
    exact pushEntry_values_nonempty _ _ m h

theorem homeroomGroups_keys_nodup (students : List Student) (sids : List String) :
    ((homeroomGroups students sids).map Prod.fst).Nodup := by
  unfold homeroomGroups
  suffices hgen : ∀ (l : List String) (m : List (String × List String)),
      (m.map Prod.fst).Nodup → ((l.foldl (homeroomStep students) m).map Prod.fst).Nodup by
    exact hgen sids [] (by simp)
  intro l
  induction l with
  | nil => intro m h; exact h
  | cons sid rest ih =>
    intro m h
    simp only [List.foldl_cons]
    exact ih _ (homeroomStep_keys_nodup students m sid h)

theorem homeroomGroups_values_nonempty (students : List Student) (sids : List String) :
    ∀ e ∈ homeroomGroups students sids, e.2 ≠ [] := by
  unfold homeroomGroups
  suffices hgen : ∀ (l : List String) (m : List (String × List String)),
      (∀ e ∈ m, e.2 ≠ []) → ∀ e ∈ l.foldl (homeroomStep students) m, e.2 ≠ [] by
    exact hgen sids [] (by simp)
  intro l
  induction l with
  | nil => intro m h; exact h
  | cons sid rest ih =>
    intro m h
    simp only [List.foldl_cons]
    exact ih _ (homeroomStep_values_nonempty students m sid h)

theorem splitPure_fst (students : List Student) :
    ∀ (groups : List (String × List String)) (acc : List (String × List String) × List String),
      (groups.foldl (fun acc e =>
        if pureCond students e then (acc.1 ++ [e], acc.2) else (acc.1, acc.2 ++ e.2)) acc).1 =
        acc.1 ++ groups.filter (pureCond students) := by
  intro groups
  induction groups with
  | nil => intro acc; simp
  | cons e gs ih =>
    intro acc
    simp only [List.foldl_cons, List.filter_cons]
    by_cases hc : pureCond students e
    · rw [if_pos hc, ih, if_pos hc]
      simp
    · rw [if_neg hc, ih, if_neg (by simpa using hc)]

theorem splitPure_snd (students : List Student) :
    ∀ (groups : List (String × List String)) (acc : List (String × List String) × List String),
      (groups.foldl (fun acc e =>
        if pureCond students e then (acc.1 ++ [e], acc.2) else (acc.1, acc.2 ++ e.2)) acc).2 =
        acc.2 ++ (groups.filter (fun e => !(pureCond students e))).flatMap Prod.snd := by
  intro groups
  induction groups with
  | nil => intro acc; simp
  | cons e gs ih =>
    intro acc
    simp only [List.foldl_cons, List.filter_cons]
    by_cases hc : pureCond students e
    · rw [if_pos hc, ih]
      have : (!pureCond students e) = false := by simp [hc]
      rw [this]
      simp
    · rw [if_neg hc, ih]
      have : (!pureCond students e) = true := by simp [hc]
      rw [this]
      simp

theorem splitPure_fst_eq (students : List Student) (groups : List (String × List String)) :
    (splitPure students groups).1 = groups.filter (pureCond students) := by
  unfold splitPure
  rw [splitPure_fst]
  simp

theorem splitPure_snd_eq (students : List Student) (groups : List (String × List String)) :
    (splitPure students groups).2 =
      (groups.filter (fun e => !(pureCond students e))).flatMap Prod.snd := by
  unfold splitPure
  rw [splitPure_snd]
  simp

theorem sessions_nodup (credit : Nat) : (sessions credit).Nodup :=
  (List.nodup_range credit).map (fun h => by omega)

theorem chunkSeqGo_ne_nil (m : Nat) :
    ∀ (f : Nat) (l : List String) (c : List String), c ∈ chunkSeqGo m f l → c ≠ [] := by
  intro f
  induction f with
  | zero => intro l c hc; simp [chunkSeqGo] at hc
  | succ f ih =>
    intro l c hc
    cases l with
    | nil => simp [chunkSeqGo] at hc
    | cons x xs =>
      simp only [chunkSeqGo, List.mem_cons] at hc
      rcases hc with h | h
      · rw [h]; simp
      · exact ih _ _ h

/-- With `maxSize >= 1` every produced chunk is nonempty (the balanced
branch hands at least `floor(n/numGroups) >= 1` items to every group). -/
theorem chunks_ne_nil (items : List String) (minSize maxSize : Int) (hm : 1 ≤ maxSize) :
    ∀ c ∈ splitIntoBalancedChunks items minSize maxSize, c ≠ [] := by
  intro c hc
  have hmN : 1 ≤ maxSize.toNat := by omega
  by_cases hnil : items.length = 0
  · unfold splitIntoBalancedChunks at hc
    rw [if_pos hnil] at hc
    simp at hc
  · by_cases hdeg : minSize ≤ 0 ∨ maxSize < minSize
    · unfold splitIntoBalancedChunks at hc
      rw [if_neg hnil, if_pos hdeg] at hc
      simp only [chunkSeq, if_neg (by omega : ¬ maxSize ≤ 0)] at hc
      exact chunkSeqGo_ne_nil _ _ _ c hc
    · push_neg at hdeg
      have hn : 1 ≤ items.length := by omega
      obtain ⟨hg1, hub⟩ := ceil_group_bounds items.length maxSize.toNat hmN hn
      set g0 := (items.length + maxSize.toNat - 1) / maxSize.toNat with hg0
      have hsplit : splitIntoBalancedChunks items minSize maxSize =
          takeChunks g0 (items.length / g0) (items.length % g0) items := by
        unfold splitIntoBalancedChunks
        rw [if_neg hnil, if_neg (by push_neg; exact ⟨by omega, by omega⟩)]
        simp only [← hg0, if_neg (by omega : ¬ g0 = 0)]
      have hdm : g0 * (items.length / g0) + items.length % g0 = items.length :=
        Nat.div_add_mod _ _
      have hmodlt : items.length % g0 < g0 := Nat.mod_lt _ (by omega)
      have hmap := takeChunks_map_length g0 (items.length / g0) (items.length % g0) items
        (by omega)
      -- the group count never exceeds the pool size, so the base size is positive
      have hgle : g0 ≤ items.length := by
        rw [hg0]
        rw [Nat.div_le_iff_le_mul_add_pred (by omega)]
        have : items.length ≤ maxSize.toNat * items.length :=
          Nat.le_mul_of_pos_left _ (by omega)
        omega
      have hbase : 1 ≤ items.length / g0 := by
        rw [Nat.one_le_div_iff (by omega)]
        exact hgle
      rw [hsplit] at hc
      have hmem : c.length ∈ (takeChunks g0 (items.length / g0) (items.length % g0) items).map
          List.length := List.mem_map_of_mem _ hc
      rw [hmap] at hmem
      obtain ⟨i, _, hi⟩ := List.mem_map.mp hmem
      intro hcnil
      rw [hcnil] at hi
      simp only [List.length_nil] at hi
      by_cases hlt : i < items.length % g0
      · rw [if_pos hlt] at hi; omega
      · rw [if_neg hlt] at hi; omega

/-- Shape of every instance created for one code: the code component is the
batch code, the session is one of `1..credit`, and the group/roster/purity
are those of a pure homeroom entry or of a mixed chunk. -/
theorem instancesForCode_shape (classes : List ClassRoom) (students : List Student)
    (metas : List SubjectMeta) (minSize : Int) (code : String) (inst : SubjectInstance)
    (h : inst ∈ instancesForCode classes students metas minSize code) :
    inst.id.code = code ∧ inst.id.session ∈ sessions (creditOf metas code) ∧
    ((∃ e, e ∈ (splitPure students (homeroomGroups students (subjectGroup students code))).1 ∧
        inst.id.group = .homeroom e.1 ∧ inst.students = e.2 ∧ inst.isPure = true) ∨
     (∃ gi chunk, (splitIntoBalancedChunks
          (splitPure students (homeroomGroups students (subjectGroup students code))).2
          minSize (effMaxSize classes))[gi]? = some chunk ∧
        inst.id.group = .mixed (gi + 1) ∧ inst.students = chunk ∧ inst.isPure = false)) := by
  simp only [instancesForCode, List.mem_append, List.mem_flatMap, List.mem_map] at h
  rcases h with ⟨e, he, c, hc, hmk⟩ | ⟨p, hp, c, hc, hmk⟩
  · subst hmk
    exact ⟨rfl, hc, Or.inl ⟨e, he, rfl, rfl, rfl⟩⟩
  · subst hmk
    refine ⟨rfl, hc, Or.inr ⟨p.1, p.2, ?_, rfl, rfl, rfl⟩⟩
    exact List.mem_enum_iff_getElem?.mp hp

theorem pures_keys_nodup (students : List Student) (code : String) :
    (((splitPure students (homeroomGroups students (subjectGroup students code))).1).map
      Prod.fst).Nodup := by
  rw [splitPure_fst_eq]
  exact (homeroomGroups_keys_nodup students _).sublist
    ((List.filter_sublist _).map Prod.fst)

/-- The instance ids created for one code are pairwise distinct. -/
theorem instancesForCode_ids_nodup (classes : List ClassRoom) (students : List Student)
    (metas : List SubjectMeta) (minSize : Int) (code : String) :
    ((instancesForCode classes students metas minSize code).map (fun i => i.id)).Nodup := by
  simp only [instancesForCode, List.map_append]
  rw [List.nodup_append]
  refine ⟨?_, ?_, ?_⟩
  · rw [List.map_flatMap]
    rw [List.nodup_flatMap]
    constructor
    · intro e _
      rw [List.map_map]
      refine (sessions_nodup _).map ?_
      intro a b hab
      simpa [mkInstance] using hab
    · have hpw := List.pairwise_map.mp (pures_keys_nodup students code)
      refine hpw.imp ?_
      intro e1 e2 hne
      intro x hx1 hx2
      simp only [List.map_map] at hx1 hx2
      obtain ⟨c1, _, hc1⟩ := List.mem_map.mp hx1
      obtain ⟨c2, _, hc2⟩ := List.mem_map.mp hx2
      rw [← hc1] at hc2
      simp only [Function.comp, mkInstance, InstId.mk.injEq, GroupTag.homeroom.injEq] at hc2
      exact hne hc2.2.1.symm
  · rw [List.map_flatMap]
    rw [List.nodup_flatMap]
    constructor
    · intro p _
      rw [List.map_map]
      refine (sessions_nodup _).map ?_
      intro a b hab
      simpa [mkInstance] using hab
    · have henum : ((splitIntoBalancedChunks
          (splitPure students (homeroomGroups students (subjectGroup students code))).2
          minSize (effMaxSize classes)).enum.map Prod.fst).Nodup := by
        rw [List.enum_map_fst]
        exact List.nodup_range _
      have hpw := List.pairwise_map.mp henum
      refine hpw.imp ?_
      intro p1 p2 hne
      intro x hx1 hx2
      simp only [List.map_map] at hx1 hx2
      obtain ⟨c1, _, hc1⟩ := List.mem_map.mp hx1
      obtain ⟨c2, _, hc2⟩ := List.mem_map.mp hx2
      rw [← hc1] at hc2
      simp only [Function.comp, mkInstance, InstId.mk.injEq, GroupTag.mixed.injEq] at hc2
      exact hne (by omega)
  · intro x hx1 hx2
    rw [List.map_flatMap] at hx1 hx2
    obtain ⟨e, _, hxe⟩ := List.mem_flatMap.mp hx1
    obtain ⟨p, _, hxp⟩ := List.mem_flatMap.mp hx2
    simp only [List.map_map] at hxe hxp
    obtain ⟨c1, _, hc1⟩ := List.mem_map.mp hxe
    obtain ⟨c2, _, hc2⟩ := List.mem_map.mp hxp
    rw [← hc1] at hc2
    simp only [Function.comp, mkInstance, InstId.mk.injEq] at hc2
    exact GroupTag.noConfusion hc2.2.1

/-- All created instance ids are pairwise distinct: active codes are
deduplicated, and within one code the (group, session) pairs are unique. -/
theorem buildInstances_ids_nodup (classes : List ClassRoom) (students : List Student)
    (metas : List SubjectMeta) (minSize : Int) :
    ((buildInstances classes students metas minSize).map (fun i => i.id)).Nodup := by
  unfold buildInstances
  rw [List.map_flatMap, List.nodup_flatMap]
  constructor
  · intro c _
    exact instancesForCode_ids_nodup classes students metas minSize c
  · refine (activeCodesInOrder_nodup metas students).imp ?_
    intro c1 c2 hne
    intro x hx1 hx2
    obtain ⟨i1, hi1, hx1⟩ := List.mem_map.mp hx1
    obtain ⟨i2, hi2, hx2⟩ := List.mem_map.mp hx2
    have h1 := instancesForCode_code classes students metas minSize c1 i1 hi1
    have h2 := instancesForCode_code classes students metas minSize c2 i2 hi2
    apply hne
    rw [← h1, ← h2, hx1, hx2]

theorem schedInstances_ids_nodup (classes : List ClassRoom) (students : List Student)
    (metas : List SubjectMeta) (minSize : Int) :
    ((schedInstances classes students metas minSize).map (fun i => i.id)).Nodup := by
  have hperm := (sortByDegree_perm (buildInstances classes students metas minSize)
    (buildInstances classes students metas minSize)).map (fun i => i.id)
  exact hperm.nodup_iff.mpr (buildInstances_ids_nodup classes students metas minSize)

/-- Two created instances with the same subject code and group tag share the
identical roster (they are credit-sessions of one group). -/
theorem buildInstances_same_group_roster (classes : List ClassRoom) (students : List Student)
    (metas : List SubjectMeta) (minSize : Int) (i j : SubjectInstance)
    (hi : i ∈ buildInstances classes students metas minSize)
    (hj : j ∈ buildInstances classes students metas minSize)
    (hcode : i.id.code = j.id.code) (hgroup : i.id.group = j.id.group) :
    i.students = j.students := by
  simp only [buildInstances, List.mem_flatMap] at hi hj
  obtain ⟨c1, _, hi⟩ := hi
  obtain ⟨c2, _, hj⟩ := hj
  obtain ⟨hic, _, hishape⟩ := instancesForCode_shape classes students metas minSize c1 i hi
  obtain ⟨hjc, _, hjshape⟩ := instancesForCode_shape classes students metas minSize c2 j hj
  have hc : c1 = c2 := by rw [← hic, ← hjc, hcode]
  subst hc
  rcases hishape with ⟨e1, he1, hg1, hs1, _⟩ | ⟨g1, ch1, hch1, hg1, hs1, _⟩
  · rcases hjshape with ⟨e2, he2, hg2, hs2, _⟩ | ⟨g2, ch2, hch2, hg2, hs2, _⟩
    · have hkey : e1.1 = e2.1 := by
        rw [hgroup, hg2] at hg1
        exact (GroupTag.homeroom.inj hg1).symm
      have he : e1 = e2 :=
        List.inj_on_of_nodup_map (pures_keys_nodup students c1) he1 he2 hkey
      rw [hs1, hs2, he]
    · rw [hgroup, hg2] at hg1
      exact GroupTag.noConfusion hg1
  · rcases hjshape with ⟨e2, he2, hg2, hs2, _⟩ | ⟨g2, ch2, hch2, hg2, hs2, _⟩
    · rw [hgroup, hg2] at hg1
      exact GroupTag.noConfusion hg1
    · have hgi : g1 = g2 := by
        rw [hgroup, hg2] at hg1
        have := GroupTag.mixed.inj hg1
        omega
      subst hgi
      rw [hch1] at hch2
      rw [hs1, hs2, Option.some.inj hch2]

theorem schedInstances_same_group_roster (classes : List ClassRoom) (students : List Student)
    (metas : List SubjectMeta) (minSize : Int) (i j : SubjectInstance)
    (hi : i ∈ schedInstances classes students metas minSize)
    (hj : j ∈ schedInstances classes students metas minSize)
    (hcode : i.id.code = j.id.code) (hgroup : i.id.group = j.id.group) :
    i.students = j.students :=
  buildInstances_same_group_roster classes students metas minSize i j
    ((mem_schedInstances classes students metas minSize i).mp hi)
    ((mem_schedInstances classes students metas minSize j).mp hj) hcode hgroup

/-- With a positive chunk cap every created instance has a nonempty roster
(pure homeroom entries are built nonempty; chunks are nonempty by
`chunks_ne_nil`). -/
theorem buildInstances_roster_nonempty (classes : List ClassRoom) (students : List Student)
    (metas : List SubjectMeta) (minSize : Int) (hmax : 1 ≤ effMaxSize classes)
    (inst : SubjectInstance) (h : inst ∈ buildInstances classes students metas minSize) :
    inst.students ≠ [] := by
  simp only [buildInstances, List.mem_flatMap] at h
  obtain ⟨c, _, hinst⟩ := h
  obtain ⟨_, _, hshape⟩ := instancesForCode_shape classes students metas minSize c inst hinst
  rcases hshape with ⟨e, he, _, hs, _⟩ | ⟨gi, chunk, hch, _, hs, _⟩
  · rw [hs]
    rw [splitPure_fst_eq] at he
    exact homeroomGroups_values_nonempty students _ e (List.mem_of_mem_filter he)
  · rw [hs]
    exact chunks_ne_nil _ minSize (effMaxSize classes) hmax chunk (List.getElem?_mem hch)

theorem schedInstances_roster_nonempty (classes : List ClassRoom) (students : List Student)
    (metas : List SubjectMeta) (minSize : Int) (hmax : 1 ≤ effMaxSize classes)
    (inst : SubjectInstance) (h : inst ∈ schedInstances classes students metas minSize) :
    inst.students ≠ [] :=
  buildInstances_roster_nonempty classes students metas minSize hmax inst
    ((mem_schedInstances classes students metas minSize inst).mp h)

/-- Under distinct ids, `instances.find` at an instance's own id returns
that instance. -/
theorem findInst_self (I : List SubjectInstance) (hnd : (I.map (fun i => i.id)).Nodup) :
    ∀ inst ∈ I, findInst I inst.id = some inst := by
  induction I with
  | nil => intro inst h; simp at h
  | cons j rest ih =>
    intro inst hmem
    simp only [List.map_cons, List.nodup_cons] at hnd
    rcases List.mem_cons.mp hmem with h | h
    · subst h
      simp [findInst]
    · have hne : j.id ≠ inst.id := by
        intro hcon
        exact hnd.1 (hcon ▸ List.mem_map_of_mem (fun i => i.id) h)
      unfold findInst
      rw [List.find?_cons_of_neg _ (by simpa using hne)]
      exact ih hnd.2 inst h

/-! ## Conflict safety (claim C3) -/

/-- Roster of the instance a block entry denotes, resolved the way the
source resolves ids (`instances.find`). -/
def rosterOf (I : List SubjectInstance) (eid : InstId) : List String :=
  match findInst I eid with
  | some i => i.students
  | none => []

/-- Safety of a pair of block occupants: distinct entries never share a
student and never belong to the same subject/roster group. -/
def okPair (I : List SubjectInstance) (a c : InstId) : Prop :=
  a = c ∨ ((∀ sid ∈ rosterOf I a, sid ∉ rosterOf I c) ∧
    ¬(a.code = c.code ∧ a.group = c.group))

theorem okPair_symm (I : List SubjectInstance) : ∀ a c, okPair I a c → okPair I c a := by
  intro a c h
  rcases h with h | ⟨hdisj, hkey⟩
  · exact Or.inl h.symm
  · refine Or.inr ⟨?_, ?_⟩
    · intro sid hc ha
      exact hdisj sid ha hc
    · intro ⟨h1, h2⟩
      exact hkey ⟨h1.symm, h2.symm⟩

/-- Per-block safety invariant threaded through the pipeline. -/
def BlockSafe (I : List SubjectInstance) (subjects : List InstId) : Prop :=
  (∀ eid ∈ subjects, (findInst I eid).isSome) ∧ List.Pairwise (okPair I) subjects

theorem rosterIntersects_false (a b : List String) (h : rosterIntersects a b = false) :
    ∀ s ∈ a, s ∉ b := by
  intro s hs hb
  have : rosterIntersects a b = true := by
    unfold rosterIntersects
    rw [List.any_eq_true]
    exact ⟨s, hs, by simpa using hb⟩
  rw [h] at this
  exact Bool.false_ne_true this

theorem conflictEdge_false (inst other : SubjectInstance)
    (h : conflictEdge inst other = false) :
    inst.id = other.id ∨
      ((∀ s ∈ inst.students, s ∉ other.students) ∧
        ¬(inst.id.code = other.id.code ∧ inst.id.group = other.id.group)) := by
  unfold conflictEdge at h
  rcases Bool.and_eq_false_iff.mp h with h1 | h2
  · left
    have : decide (inst.id = other.id) = true := by
      cases hd : decide (inst.id = other.id)
      · rw [hd] at h1; simp at h1
      · rfl
    exact of_decide_eq_true this
  · right
    rcases Bool.or_eq_false_iff.mp h2 with ⟨hint, hkey⟩
    refine ⟨rosterIntersects_false _ _ hint, ?_⟩
    intro ⟨hc, hg⟩
    have : sameGroupKey inst.id other.id = true := by
      unfold sameGroupKey
      rw [decide_eq_true hc, decide_eq_true hg]
      rfl
    rw [hkey] at this
    exact Bool.false_ne_true this

/-- The feasibility check makes an appended instance pair-safe against every
current occupant (under distinct instance ids). -/
theorem blockSafe_fit (I : List SubjectInstance) (metas : List SubjectMeta)
    (hnd : (I.map (fun i => i.id)).Nodup)
    (inst : SubjectInstance) (hmem : inst ∈ I) (b : ScheduleBlock)
    (hfit : canFitInBlock inst b I metas = true) (hsafe : BlockSafe I b.subjects) :
    BlockSafe I (b.subjects ++ [inst.id]) := by
  obtain ⟨hres, hpw⟩ := hsafe
  have hself : findInst I inst.id = some inst := findInst_self I hnd inst hmem
  have hconf : ∀ eid ∈ b.subjects, conflictsWith I inst eid = false := by
    intro eid heid
    have := (Bool.and_eq_true _ _).mp hfit |>.1
    rw [List.all_eq_true] at this
    have := this eid heid
    simpa using this
  refine ⟨?_, ?_⟩
  · intro eid heid
    rcases List.mem_append.mp heid with h | h
    · exact hres eid h
    · simp only [List.mem_singleton] at h
      rw [h, hself]
      rfl
  · rw [List.pairwise_append]
    refine ⟨hpw, List.pairwise_singleton _ _, ?_⟩
    intro a ha c hc
    simp only [List.mem_singleton] at hc
    subst hc
    obtain ⟨other, hother⟩ := Option.isSome_iff_exists.mp (hres a ha)
    obtain ⟨homem, hoid⟩ := findInst_eq_some I a other hother
    have hcw := hconf a ha
    unfold conflictsWith at hcw
    rw [hother] at hcw
    rcases conflictEdge_false inst other hcw with heq | ⟨hdisj, hkey⟩
    · exact Or.inl (by rw [hoid] at heq; exact heq.symm)
    · refine Or.inr ⟨?_, ?_⟩
      · intro sid hsa hsc
        rw [rosterOf, hother] at hsa
        rw [rosterOf, hself] at hsc
        exact hdisj sid hsc hsa
      · intro ⟨h1, h2⟩
        rw [← hoid] at h1 h2
        exact hkey ⟨h1.symm, h2.symm⟩

theorem blockSafe_singleton (I : List SubjectInstance) (hnd : (I.map (fun i => i.id)).Nodup)
    (inst : SubjectInstance) (hmem : inst ∈ I) : BlockSafe I [inst.id] := by
  refine ⟨?_, List.pairwise_singleton _ _⟩
  intro eid heid
  simp only [List.mem_singleton] at heid
  rw [heid, findInst_self I hnd inst hmem]
  rfl

/-- Merging a `canMerge`-approved pair preserves per-block safety: the
roster-intersection check separates the two sides, and two same-group
entries would share their (nonempty, identical) roster. -/
theorem blockSafe_merge (I : List SubjectInstance) (metas : List SubjectMeta)
    (hsgsr : ∀ i ∈ I, ∀ j ∈ I, i.id.code = j.id.code → i.id.group = j.id.group →
      i.students = j.students)
    (hne : ∀ i ∈ I, i.students ≠ [])
    (b1 b2 : ScheduleBlock) (hcm : canMerge b1 b2 I metas = true)
    (h1 : BlockSafe I b1.subjects) (h2 : BlockSafe I b2.subjects) :
    BlockSafe I (b1.subjects ++ b2.subjects) := by
  obtain ⟨hres1, hpw1⟩ := h1
  obtain ⟨hres2, hpw2⟩ := h2
  have hstu : mergeStudentsOk I b1 b2 = true := ((Bool.and_eq_true _ _).mp hcm).1
  refine ⟨?_, ?_⟩
  · intro eid heid
    rcases List.mem_append.mp heid with h | h
    · exact hres1 eid h
    · exact hres2 eid h
  · rw [List.pairwise_append]
    refine ⟨hpw1, hpw2, ?_⟩
    intro a ha c hc
    obtain ⟨ia, hia⟩ := Option.isSome_iff_exists.mp (hres1 a ha)
    obtain ⟨ic, hic⟩ := Option.isSome_iff_exists.mp (hres2 c hc)
    obtain ⟨hiamem, hiaid⟩ := findInst_eq_some I a ia hia
    obtain ⟨hicmem, hicid⟩ := findInst_eq_some I c ic hic
    -- every student of c's instance is outside the whole of b1's students
    have hcheck : ∀ s ∈ ic.students, s ∉ blockStudents I b1 := by
      unfold mergeStudentsOk at hstu
      rw [List.all_eq_true] at hstu
      have := hstu c hc
      rw [hic] at this
      simp only [List.all_eq_true] at this
      intro s hs hmem
      have hs2 := this s hs
      have : (blockStudents I b1).contains s = true := by simpa using hmem
      rw [this] at hs2
      simp at hs2
    have hsub : ∀ s ∈ ia.students, s ∈ blockStudents I b1 := by
      intro s hs
      unfold blockStudents
      rw [List.mem_flatMap]
      refine ⟨a, ha, ?_⟩
      rw [hia]
      exact hs
    refine Or.inr ⟨?_, ?_⟩
    · intro sid hsa hsc
      rw [rosterOf, hia] at hsa
      rw [rosterOf, hic] at hsc
      exact hcheck sid hsc (hsub sid hsa)
    · intro ⟨hcode, hgroup⟩
      have hroster : ia.students = ic.students :=
        hsgsr ia hiamem ic hicmem (by rw [hiaid, hicid]; exact hcode)
          (by rw [hiaid, hicid]; exact hgroup)
      obtain ⟨s, hs⟩ := List.exists_mem_of_ne_nil _ (hne ia hiamem)
      exact hcheck s (hroster ▸ hs) (hsub s hs)

/-- Claim C3: in every block of the returned `ScheduleResult` — after
greedy placement, after block merging and after sequence reordering — no
two distinct occupants share a student, and no two occupants belong to the
same subject/roster group (same code and group, differing only in the
session suffix).  The hypothesis `1 ≤ effMaxSize classes` restricts to the
regime where the chunking loop of the source terminates (see C10). -/
theorem claim_C3_conflict_safety (classes : List ClassRoom) (students : List Student)
    (metas : List SubjectMeta) (opt : ScheduleOption) (minSize : Int)
    (draws : List (Nat × Nat)) (hmax : 1 ≤ effMaxSize classes) :
    ∀ b ∈ (calculateMovingClasses classes students metas opt minSize draws).blocks,
      ∀ a ∈ b.subjects, ∀ c ∈ b.subjects, a ≠ c →
        (∀ sid ∈ rosterOf (schedInstances classes students metas minSize) a,
          sid ∉ rosterOf (schedInstances classes students metas minSize) c) ∧
        ¬(a.code = c.code ∧ a.group = c.group) := by
  set I := schedInstances classes students metas minSize with hI
  have hnd : (I.map (fun i => i.id)).Nodup :=
    schedInstances_ids_nodup classes students metas minSize
  have hsgsr : ∀ i ∈ I, ∀ j ∈ I, i.id.code = j.id.code → i.id.group = j.id.group →
      i.students = j.students :=
    fun i hi j hj => schedInstances_same_group_roster classes students metas minSize i j hi hj
  have hrne : ∀ i ∈ I, i.students ≠ [] :=
    fun i hi => schedInstances_roster_nonempty classes students metas minSize hmax i hi
  -- safety holds after placement
  set placed := scheduleMixed opt I metas (I.filter (fun i => !i.isPure)) with hplaceddef
  have hplaced : ∀ b ∈ placed, BlockSafe I b.subjects := by
    refine scheduleMixed_inv opt I metas (BlockSafe I) _ ?_ ?_
    · intro inst hinst b hfit hsafe
      exact blockSafe_fit I metas hnd inst (List.mem_of_mem_filter hinst) b hfit hsafe
    · intro inst hinst
      exact blockSafe_singleton I hnd inst (List.mem_of_mem_filter hinst)
  have hall : ∀ b ∈ schedPlacedBlocks classes students metas opt minSize,
      BlockSafe I b.subjects := by
    intro b hb
    have heq : schedPlacedBlocks classes students metas opt minSize =
        placed ++ pureSingles (placed.length : Int) (I.filter (fun i => i.isPure)) :=
      addPureBlocks_eq _ _
    rw [heq] at hb
    rcases List.mem_append.mp hb with h | h
    · exact hplaced b h
    · obtain ⟨inst, hmem, hs⟩ := mem_pureSingles _ _ b h
      rw [hs]
      exact blockSafe_singleton I hnd inst (List.mem_of_mem_filter hmem)
  -- safety is preserved through merging and recombination
  have hpre : ∀ b ∈ schedPreOptBlocks classes students metas opt minSize,
      BlockSafe I b.subjects := by
    intro b hb
    have heq : schedPreOptBlocks classes students metas opt minSize =
        mergeBlocks I metas ((schedPlacedBlocks classes students metas opt minSize).filter
          (fun b => !(isPureBlock I b))) ++
        (schedPlacedBlocks classes students metas opt minSize).filter (isPureBlock I) := rfl
    rw [heq] at hb
    rcases List.mem_append.mp hb with h | h
    · unfold mergeBlocks at h
      refine mergeLoop_inv I metas (BlockSafe I) ?_ _ _ ?_ b h
      · intro b1 b2 hcm hs1 hs2
        exact blockSafe_merge I metas hsgsr hrne b1 b2 hcm hs1 hs2
      · intro b2 hb2
        exact hall b2 (List.mem_of_mem_filter hb2)
    · exact hall b (List.mem_of_mem_filter h)
  -- and through reordering and re-identification
  intro b hb a ha c hc hne
  have hblocks : (calculateMovingClasses classes students metas opt minSize draws).blocks =
      reassignIds 1 (optimizeBlockSequence (schedEntries classes students metas minSize)
        (schedPreOptBlocks classes students metas opt minSize) draws) := rfl
  rw [hblocks] at hb
  obtain ⟨b0, hb0, hsubj⟩ := reassignIds_subjects _ 1 b hb
  have hb0mem := optimize_mem _ _ _ b0 hb0
  obtain ⟨_, hpw⟩ := hpre b0 hb0mem
  rw [hsubj] at ha hc
  have hok : okPair I a c := hpw.forall (okPair_symm I) ha hc hne
  rcases hok with h | h
  · exact absurd h hne
  · exact h

/-- Witness for C3 at a concrete input: two disjoint one-student subjects P
and Q end up in one block, and the theorem yields their roster disjointness
and group distinctness. -/
theorem claim_C3_witness :
    (1 : Int) ≤ effMaxSize [] ∧
    ((∀ sid ∈ rosterOf (schedInstances [] [⟨"a", ["P"], some "1"⟩, ⟨"b", ["Q"], some "1"⟩,
        ⟨"c", [], some "1"⟩] [⟨"P", "Pn", 1, 1⟩, ⟨"Q", "Qn", 1, 1⟩] 0) ⟨"P", .mixed 1, 1⟩,
      sid ∉ rosterOf (schedInstances [] [⟨"a", ["P"], some "1"⟩, ⟨"b", ["Q"], some "1"⟩,
        ⟨"c", [], some "1"⟩] [⟨"P", "Pn", 1, 1⟩, ⟨"Q", "Qn", 1, 1⟩] 0) ⟨"Q", .mixed 1, 1⟩) ∧
      ¬((⟨"P", .mixed 1, 1⟩ : InstId).code = (⟨"Q", .mixed 1, 1⟩ : InstId).code ∧
        (⟨"P", .mixed 1, 1⟩ : InstId).group = (⟨"Q", .mixed 1, 1⟩ : InstId).group)) := by
  refine ⟨by decide, ?_⟩
  exact claim_C3_conflict_safety [] [⟨"a", ["P"], some "1"⟩, ⟨"b", ["Q"], some "1"⟩,
      ⟨"c", [], some "1"⟩] [⟨"P", "Pn", 1, 1⟩, ⟨"Q", "Qn", 1, 1⟩] .minBlocks 0 [] (by decide)
    ⟨1, [⟨"P", .mixed 1, 1⟩, ⟨"Q", .mixed 1, 1⟩]⟩ (by decide)
    ⟨"P", .mixed 1, 1⟩ (by decide) ⟨"Q", .mixed 1, 1⟩ (by decide) (by decide)

/-! ## Capacity safety (claim C4) -/

theorem metaLookup_mem (metas : List SubjectMeta) (code : String) (m : SubjectMeta)
    (h : metaLookup metas code = some m) : m ∈ metas ∧ m.code = code := by
  unfold metaLookup at h
  refine ⟨List.mem_reverse.mp (List.mem_of_find?_eq_some h), ?_⟩
  have := List.find?_some h
  simpa using this

/-- Under resolvability the lookup-based same-code count of the source is
the plain count of ids with that code component. -/
theorem lookupCount_eq_plain (I : List SubjectInstance) (ids : List InstId) (code : String)
    (hres : ∀ eid ∈ ids, (findInst I eid).isSome) :
    (ids.filter (fun eid =>
      match findInst I eid with
      | some o => decide (o.id.code = code)
      | none => false)).length =
    (ids.filter (fun eid => decide (eid.code = code))).length := by
  congr 1
  apply List.filter_congr
  intro eid heid
  obtain ⟨o, ho⟩ := Option.isSome_iff_exists.mp (hres eid heid)
  obtain ⟨_, hoid⟩ := findInst_eq_some I eid o ho
  rw [ho]
  show decide (o.id.code = code) = decide (eid.code = code)
  rw [hoid]

/-- Capacity invariant of a block's subject list: for every code with a
metadata entry, the number of same-code occupants stays within the teacher
count. -/
def BlockCap (I : List SubjectInstance) (metas : List SubjectMeta)
    (subjects : List InstId) : Prop :=
  (∀ eid ∈ subjects, (findInst I eid).isSome) ∧
  ∀ (code : String) (meta : SubjectMeta), metaLookup metas code = some meta →
    (subjects.filter (fun eid => decide (eid.code = code))).length ≤ meta.teacherCount

theorem sameCodeCount_eq_plain (I : List SubjectInstance) (b : ScheduleBlock) (code : String)
    (hres : ∀ eid ∈ b.subjects, (findInst I eid).isSome) :
    sameCodeCount I b code = (b.subjects.filter (fun eid => decide (eid.code = code))).length :=
  lookupCount_eq_plain I b.subjects code hres

theorem blockCap_fit (I : List SubjectInstance) (metas : List SubjectMeta)
    (inst : SubjectInstance) (hmem : inst ∈ I) (b : ScheduleBlock)
    (hfit : canFitInBlock inst b I metas = true) (hcap : BlockCap I metas b.subjects) :
    BlockCap I metas (b.subjects ++ [inst.id]) := by
  obtain ⟨hres, hbound⟩ := hcap
  refine ⟨?_, ?_⟩
  · intro eid heid
    rcases List.mem_append.mp heid with h | h
    · exact hres eid h
    · simp only [List.mem_singleton] at h
      rw [h]
      exact (findInst_isSome_of_mem I inst hmem).elim (fun j hj => by rw [hj]; rfl)
  · intro code meta hlook
    rw [List.filter_append, List.length_append]
    by_cases hcode : inst.id.code = code
    · have hcnt : ([inst.id].filter (fun eid => decide (eid.code = code))).length = 1 := by
        simp [hcode]
      rw [hcnt]
      have hbranch := ((Bool.and_eq_true _ _).mp hfit).2
      rw [hcode, hlook] at hbranch
      have hlt : sameCodeCount I b code < meta.teacherCount := by
        simpa using hbranch
      rw [sameCodeCount_eq_plain I b code hres] at hlt
      omega
    · have hcnt : ([inst.id].filter (fun eid => decide (eid.code = code))).length = 0 := by
        simp [hcode]
      rw [hcnt]
      have := hbound code meta hlook
      omega

theorem blockCap_singleton (I : List SubjectInstance) (metas : List SubjectMeta)
    (HT : ∀ m ∈ metas, 1 ≤ m.teacherCount)
    (inst : SubjectInstance) (hmem : inst ∈ I) : BlockCap I metas [inst.id] := by
  refine ⟨?_, ?_⟩
  · intro eid heid
    simp only [List.mem_singleton] at heid
    rw [heid]
    exact (findInst_isSome_of_mem I inst hmem).elim (fun j hj => by rw [hj]; rfl)
  · intro code meta hlook
    obtain ⟨hmm, _⟩ := metaLookup_mem metas code meta hlook
    have := HT meta hmm
    by_cases hcode : inst.id.code = code
    · simp [hcode]
      omega
    · simp [hcode]

theorem blockCap_merge (I : List SubjectInstance) (metas : List SubjectMeta)
    (b1 b2 : ScheduleBlock) (hcm : canMerge b1 b2 I metas = true)
    (h1 : BlockCap I metas b1.subjects) (h2 : BlockCap I metas b2.subjects) :
    BlockCap I metas (b1.subjects ++ b2.subjects) := by
  obtain ⟨hres1, _⟩ := h1
  obtain ⟨hres2, _⟩ := h2
  have hres : ∀ eid ∈ b1.subjects ++ b2.subjects, (findInst I eid).isSome := by
    intro eid heid
    rcases List.mem_append.mp heid with h | h
    · exact hres1 eid h
    · exact hres2 eid h
  have hcap : mergeCapOk I metas b1 b2 = true := ((Bool.and_eq_true _ _).mp hcm).2
  refine ⟨hres, ?_⟩
  intro code meta hlook
  by_cases hzero :
      ((b1.subjects ++ b2.subjects).filter (fun eid => decide (eid.code = code))).length = 0
  · omega
  · -- some occupant has this code; its own `mergeCapOk` conjunct gives the bound
    have hex : ∃ eid0 ∈ (b1.subjects ++ b2.subjects), eid0.code = code := by
      rcases hfl : (b1.subjects ++ b2.subjects).filter
          (fun eid => decide (eid.code = code)) with _ | ⟨eid0, rest⟩
      · rw [hfl] at hzero; simp at hzero
      · have hmemf : eid0 ∈ (b1.subjects ++ b2.subjects).filter
            (fun eid => decide (eid.code = code)) := by
          rw [hfl]; exact List.mem_cons_self _ _
        exact ⟨eid0, List.mem_of_mem_filter hmemf, by
          have := List.of_mem_filter hmemf
          simpa using this⟩
    obtain ⟨eid0, heid0, hcode0⟩ := hex
    unfold mergeCapOk at hcap
    rw [List.all_eq_true] at hcap
    have hc0 := hcap eid0 heid0
    obtain ⟨i0, hi0⟩ := Option.isSome_iff_exists.mp (hres eid0 heid0)
    obtain ⟨_, hi0id⟩ := findInst_eq_some I eid0 i0 hi0
    rw [hi0] at hc0
    simp only at hc0
    rw [hi0id, hcode0, hlook] at hc0
    have hb : ((b1.subjects ++ b2.subjects).filter (fun eid2 =>
        match findInst I eid2 with
        | some o => decide (o.id.code = code)
        | none => false)).length ≤ meta.teacherCount := by
      simpa using hc0
    rw [lookupCount_eq_plain I _ _ hres] at hb
    exact hb

/-- Amended claim C4: provided every subject metadata entry allows at least
one teacher (`teacherCount >= 1`), no block of the returned result ever
holds more same-code instances than that subject's teacher count — the
blocks created fresh without running the feasibility test (new-block path
and pure singletons) hold exactly one instance, which the positivity
hypothesis covers. -/
theorem claim_C4_amended_capacity (classes : List ClassRoom) (students : List Student)
    (metas : List SubjectMeta) (opt : ScheduleOption) (minSize : Int)
    (draws : List (Nat × Nat)) (HT : ∀ m ∈ metas, 1 ≤ m.teacherCount) :
    ∀ b ∈ (calculateMovingClasses classes students metas opt minSize draws).blocks,
      ∀ (code : String) (meta : SubjectMeta), metaLookup metas code = some meta →
        (b.subjects.filter (fun eid => decide (eid.code = code))).length ≤
          meta.teacherCount := by
  set I := schedInstances classes students metas minSize with hI
  set placed := scheduleMixed opt I metas (I.filter (fun i => !i.isPure)) with hplaceddef
  have hplaced : ∀ b ∈ placed, BlockCap I metas b.subjects := by
    refine scheduleMixed_inv opt I metas (BlockCap I metas) _ ?_ ?_
    · intro inst hinst b hfit hcap
      exact blockCap_fit I metas inst (List.mem_of_mem_filter hinst) b hfit hcap
    · intro inst hinst
      exact blockCap_singleton I metas HT inst (List.mem_of_mem_filter hinst)
  have hall : ∀ b ∈ schedPlacedBlocks classes students metas opt minSize,
      BlockCap I metas b.subjects := by
    intro b hb
    have heq : schedPlacedBlocks classes students metas opt minSize =
        placed ++ pureSingles (placed.length : Int) (I.filter (fun i => i.isPure)) :=
      addPureBlocks_eq _ _
    rw [heq] at hb
    rcases List.mem_append.mp hb with h | h
    · exact hplaced b h
    · obtain ⟨inst, hmem, hs⟩ := mem_pureSingles _ _ b h
      rw [hs]
      exact blockCap_singleton I metas HT inst (List.mem_of_mem_filter hmem)
  have hpre : ∀ b ∈ schedPreOptBlocks classes students metas opt minSize,
      BlockCap I metas b.subjects := by
    intro b hb
    have heq : schedPreOptBlocks classes students metas opt minSize =
        mergeBlocks I metas ((schedPlacedBlocks classes students metas opt minSize).filter
          (fun b => !(isPureBlock I b))) ++
        (schedPlacedBlocks classes students metas opt minSize).filter (isPureBlock I) := rfl
    rw [heq] at hb
    rcases List.mem_append.mp hb with h | h
    · unfold mergeBlocks at h
      refine mergeLoop_inv I metas (BlockCap I metas) ?_ _ _ ?_ b h
      · intro b1 b2 hcm hs1 hs2
        exact blockCap_merge I metas b1 b2 hcm hs1 hs2
      · intro b2 hb2
        exact hall b2 (List.mem_of_mem_filter hb2)
    · exact hall b (List.mem_of_mem_filter h)
  intro b hb code meta hlook
  have hblocks : (calculateMovingClasses classes students metas opt minSize draws).blocks =
      reassignIds 1 (optimizeBlockSequence (schedEntries classes students metas minSize)
        (schedPreOptBlocks classes students metas opt minSize) draws) := rfl
  rw [hblocks] at hb
  obtain ⟨b0, hb0, hsubj⟩ := reassignIds_subjects _ 1 b hb
  have hb0mem := optimize_mem _ _ _ b0 hb0
  obtain ⟨_, hbound⟩ := hpre b0 hb0mem
  rw [hsubj]
  exact hbound code meta hlook

/-- Witness for the amended C4 at a concrete input: one subject with one
teacher, whose single instance occupies its block alone. -/
theorem claim_C4_amended_witness :
    (∀ m ∈ ([⟨"S", "Sn", 1, 1⟩] : List SubjectMeta), 1 ≤ m.teacherCount) ∧
    (([(⟨"S", .mixed 1, 1⟩ : InstId)].filter
      (fun eid => decide (eid.code = "S"))).length ≤ 1) := by
  refine ⟨by decide, ?_⟩
  exact claim_C4_amended_capacity [] [⟨"a", ["S"], some "1"⟩, ⟨"b", [], some "1"⟩]
    [⟨"S", "Sn", 1, 1⟩] .minBlocks 0 [] (by decide)
    ⟨1, [⟨"S", .mixed 1, 1⟩]⟩ (by decide) "S" ⟨"S", "Sn", 1, 1⟩ (by decide)

/-- Counterexample to claim C4 as stated: the subject-metadata sheet can
carry `teacherCount = 0` (`Number('0')` in the importer), and the new-block
path places an instance without running the feasibility test, so the
returned result holds one S-instance in a block although S's teacher count
is 0. -/
theorem claim_C4_counterexample :
    metaLookup [⟨"S", "Sn", 0, 1⟩] "S" = some ⟨"S", "Sn", 0, 1⟩ ∧
    (calculateMovingClasses [] [⟨"a", ["S"], some "1"⟩, ⟨"b", [], some "1"⟩]
        [⟨"S", "Sn", 0, 1⟩] .minBlocks 0 []).blocks =
      [⟨1, [⟨"S", .mixed 1, 1⟩]⟩] ∧
    (([(⟨"S", .mixed 1, 1⟩ : InstId)].filter
      (fun eid => decide (eid.code = "S"))).length = 1) ∧
    (⟨"S", "Sn", 0, 1⟩ : SubjectMeta).teacherCount = 0 := by
  refine ⟨by decide, by decide, by decide, by decide⟩

/-! ## Purity exclusivity (claim C5) -/

theorem shape_of_not_pure (I : List SubjectInstance) (hcoh : PureTagCoherent I)
    (inst : SubjectInstance) (hmem : inst ∈ I) (hnp : inst.isPure = false) :
    ∃ gi, inst.id.group = .mixed gi := by
  cases hgrp : inst.id.group with
  | homeroom cls =>
    have := (hcoh inst hmem).mpr ⟨cls, hgrp⟩
    rw [this] at hnp
    exact absurd hnp (by simp)
  | mixed gi => exact ⟨gi, rfl⟩

/-- Claim C5: every pure instance goes to its own fresh singleton block
appended after the mixed placement (first conjunct: the placed block list
is exactly the mixed blocks followed by one singleton per pure instance, in
order), and in the final result any block containing a pure instance
contains exactly that one instance — pure blocks are excluded from merging
and nothing is ever added to them. -/
theorem claim_C5_pure_singletons (classes : List ClassRoom) (students : List Student)
    (metas : List SubjectMeta) (opt : ScheduleOption) (minSize : Int)
    (draws : List (Nat × Nat)) :
    (schedPlacedBlocks classes students metas opt minSize =
      scheduleMixed opt (schedInstances classes students metas minSize) metas
          ((schedInstances classes students metas minSize).filter (fun i => !i.isPure)) ++
        pureSingles
          ((scheduleMixed opt (schedInstances classes students metas minSize) metas
            ((schedInstances classes students metas minSize).filter
              (fun i => !i.isPure))).length : Int)
          ((schedInstances classes students metas minSize).filter (fun i => i.isPure))) ∧
    (∀ b ∈ (calculateMovingClasses classes students metas opt minSize draws).blocks,
      ∀ eid ∈ b.subjects,
        isPureId (schedInstances classes students metas minSize) eid = true →
          b.subjects = [eid]) := by
  set I := schedInstances classes students metas minSize with hI
  have hcoh : PureTagCoherent I := fun i hi =>
    schedInstances_pure_tag classes students metas minSize i hi
  set mixedL := I.filter (fun i => !i.isPure) with hmixedL
  set pureL := I.filter (fun i => i.isPure) with hpureL
  set placed := scheduleMixed opt I metas mixedL with hplaceddef
  have hplacedall : schedPlacedBlocks classes students metas opt minSize =
      placed ++ pureSingles (placed.length : Int) pureL := by
    show addPureBlocks placed pureL = _
    exact addPureBlocks_eq pureL placed
  refine ⟨hplacedall, ?_⟩
  -- every placed (mixed) block holds only mixed-shaped ids
  have hplacedshape : ∀ b ∈ placed, ∀ eid ∈ b.subjects, ∃ gi, eid.group = GroupTag.mixed gi := by
    refine scheduleMixed_inv opt I metas
      (fun subjects => ∀ eid ∈ subjects, ∃ gi, eid.group = GroupTag.mixed gi) mixedL ?_ ?_
    · intro inst hinst b _ hP eid heid
      rcases List.mem_append.mp heid with h | h
      · exact hP eid h
      · simp only [List.mem_singleton] at h
        subst h
        have hmem := List.mem_of_mem_filter hinst
        have hnp : inst.isPure = false := by
          have := List.of_mem_filter hinst
          simpa using this
        exact shape_of_not_pure I hcoh inst hmem hnp
    · intro inst hinst eid heid
      simp only [List.mem_singleton] at heid
      subst heid
      have hmem := List.mem_of_mem_filter hinst
      have hnp : inst.isPure = false := by
        have := List.of_mem_filter hinst
        simpa using this
      exact shape_of_not_pure I hcoh inst hmem hnp
  -- the partition sends exactly the singleton pure blocks to the pure side
  have hplacednotpure : ∀ b ∈ placed, isPureBlock I b = false := by
    intro b hb
    have hfalse : ∀ eid ∈ b.subjects, isPureId I eid = false := by
      intro eid heid
      obtain ⟨gi, hgi⟩ := hplacedshape b hb eid heid
      exact isPureId_false_of_mixed_shape I hcoh eid gi hgi
    cases hany : isPureBlock I b
    · rfl
    · exfalso
      obtain ⟨eid, heid, htrue⟩ := List.any_eq_true.mp hany
      rw [hfalse eid heid] at htrue
      exact Bool.false_ne_true htrue
  have hsinglepure : ∀ (n : Int) (b : ScheduleBlock), b ∈ pureSingles n pureL →
      isPureBlock I b = true := by
    intro n b hb
    obtain ⟨inst, hmem, hs⟩ := mem_pureSingles pureL n b hb
    have hinstI := List.mem_of_mem_filter hmem
    have hp : inst.isPure = true := by
      have := List.of_mem_filter hmem
      simpa using this
    apply List.any_eq_true.mpr
    exact ⟨inst.id, by rw [hs]; exact List.mem_singleton_self _,
      isPureId_true_of_pure_mem I hcoh inst hinstI hp⟩
  -- identify the two filtered halves
  have hfilter1 : (placed ++ pureSingles (placed.length : Int) pureL).filter
      (fun b => !(isPureBlock I b)) = placed := by
    rw [List.filter_append]
    have h1 : placed.filter (fun b => !(isPureBlock I b)) = placed :=
      List.filter_eq_self.mpr (fun b hb => by rw [hplacednotpure b hb]; rfl)
    have h2 : (pureSingles (placed.length : Int) pureL).filter
        (fun b => !(isPureBlock I b)) = [] := by
      rw [List.filter_eq_nil_iff]
      intro b hb
      rw [hsinglepure _ b hb]
      simp
    rw [h1, h2, List.append_nil]
  have hfilter2 : (placed ++ pureSingles (placed.length : Int) pureL).filter
      (isPureBlock I) = pureSingles (placed.length : Int) pureL := by
    rw [List.filter_append]
    have h1 : placed.filter (isPureBlock I) = [] := by
      rw [List.filter_eq_nil_iff]
      intro b hb
      rw [hplacednotpure b hb]
      simp
    have h2 : (pureSingles (placed.length : Int) pureL).filter (isPureBlock I) =
        pureSingles (placed.length : Int) pureL :=
      List.filter_eq_self.mpr (fun b hb => hsinglepure _ b hb)
    rw [h1, h2, List.nil_append]
  -- merged mixed blocks still hold only mixed-shaped ids
  have hpreopt : schedPreOptBlocks classes students metas opt minSize =
      mergeBlocks I metas placed ++ pureSingles (placed.length : Int) pureL := by
    show mergeBlocks I metas ((schedPlacedBlocks classes students metas opt minSize).filter
        (fun b => !(isPureBlock I b))) ++
      (schedPlacedBlocks classes students metas opt minSize).filter (isPureBlock I) = _
    rw [hplacedall, hfilter1, hfilter2]
  have hmergedshape : ∀ b ∈ mergeBlocks I metas placed, ∀ eid ∈ b.subjects,
      ∃ gi, eid.group = GroupTag.mixed gi := by
    unfold mergeBlocks
    refine mergeLoop_inv I metas
      (fun subjects => ∀ eid ∈ subjects, ∃ gi, eid.group = GroupTag.mixed gi) ?_ _ placed
      hplacedshape
    intro b1 b2 _ h1 h2 eid heid
    rcases List.mem_append.mp heid with h | h
    · exact h1 eid h
    · exact h2 eid h
  -- final blocks
  intro b hb eid heid htrue
  have hblocks : (calculateMovingClasses classes students metas opt minSize draws).blocks =
      reassignIds 1 (optimizeBlockSequence (schedEntries classes students metas minSize)
        (schedPreOptBlocks classes students metas opt minSize) draws) := rfl
  rw [hblocks] at hb
  obtain ⟨b0, hb0, hsubj⟩ := reassignIds_subjects _ 1 b hb
  have hb0mem := optimize_mem _ _ _ b0 hb0
  rw [hpreopt] at hb0mem
  rcases List.mem_append.mp hb0mem with hmerged | hsingle
  · exfalso
    obtain ⟨gi, hgi⟩ := hmergedshape b0 hmerged eid (by rw [← hsubj]; exact heid)
    have := isPureId_false_of_mixed_shape I hcoh eid gi hgi
    rw [this] at htrue
    exact Bool.false_ne_true htrue
  · obtain ⟨inst, _, hs⟩ := mem_pureSingles pureL _ b0 hsingle
    rw [hsubj, hs] at heid ⊢
    simp only [List.mem_singleton] at heid
    rw [heid]

/-- Witness for C5 at a concrete input: student "a" is the whole of homeroom
"1" and selects S, so S gets a pure instance, whose block in the final
result is the singleton holding exactly that instance. -/
theorem claim_C5_witness :
    isPureId (schedInstances [] [⟨"a", ["S"], some "1"⟩, ⟨"b", [], some "2"⟩]
        [⟨"S", "Sn", 1, 1⟩] 0) ⟨"S", .homeroom "1", 1⟩ = true ∧
    (⟨1, [⟨"S", .homeroom "1", 1⟩]⟩ : ScheduleBlock) ∈
      (calculateMovingClasses [] [⟨"a", ["S"], some "1"⟩, ⟨"b", [], some "2"⟩]
        [⟨"S", "Sn", 1, 1⟩] .minBlocks 0 []).blocks ∧
    (⟨1, [⟨"S", .homeroom "1", 1⟩]⟩ : ScheduleBlock).subjects = [⟨"S", .homeroom "1", 1⟩] := by
  refine ⟨by decide, by decide, ?_⟩
  exact (claim_C5_pure_singletons [] [⟨"a", ["S"], some "1"⟩, ⟨"b", [], some "2"⟩]
    [⟨"S", "Sn", 1, 1⟩] .minBlocks 0 []).2 ⟨1, [⟨"S", .homeroom "1", 1⟩]⟩ (by decide)
    ⟨"S", .homeroom "1", 1⟩ (by decide) (by decide)

/-! ## Sequence optimizer (claims C8 and C9) -/

theorem optStep_cases (entries : List (InstId × List String))
    (st : List ScheduleBlock × Int) (d : Nat × Nat) :
    optStep entries st d = st ∨
      ((optStep entries st d).2 < st.2 ∧
        (optStep entries st d).2 = calculateTotalGapCost (optStep entries st d).1 entries) := by
  unfold optStep
  by_cases h1 : d.1 = d.2
  · left; rw [if_pos h1]
  · rw [if_neg h1]
    by_cases h2 : calculateTotalGapCost (swapList st.1 d.1 d.2) entries < st.2
    · right
      rw [if_pos h2]
      exact ⟨h2, rfl⟩
    · left; rw [if_neg h2]

theorem optFold_invariant (entries : List (InstId × List String)) :
    ∀ (draws : List (Nat × Nat)) (st : List ScheduleBlock × Int),
      st.2 = calculateTotalGapCost st.1 entries →
      (draws.foldl (optStep entries) st).2 =
        calculateTotalGapCost (draws.foldl (optStep entries) st).1 entries ∧
      (draws.foldl (optStep entries) st).2 ≤ st.2 := by
  intro draws
  induction draws with
  | nil => intro st h; exact ⟨h, le_rfl⟩
  | cons d ds ih =>
    intro st h
    rcases optStep_cases entries st d with heq | ⟨hlt, hcost⟩
    · simp only [List.foldl_cons, heq]
      exact ih st h
    · simp only [List.foldl_cons]
      obtain ⟨h1, h2⟩ := ih (optStep entries st d) hcost
      exact ⟨h1, le_trans h2 (le_of_lt hlt)⟩

/-- The hill-climb never ends above its starting cost, whatever the random
draws were. -/
theorem optimize_cost_le (entries : List (InstId × List String))
    (blocks : List ScheduleBlock) (draws : List (Nat × Nat)) :
    calculateTotalGapCost (optimizeBlockSequence entries blocks draws) entries ≤
      calculateTotalGapCost blocks entries := by
  obtain ⟨h1, h2⟩ := optFold_invariant entries draws
    (blocks, calculateTotalGapCost blocks entries) rfl
  calc calculateTotalGapCost (optimizeBlockSequence entries blocks draws) entries
      = (draws.foldl (optStep entries) (blocks, calculateTotalGapCost blocks entries)).2 :=
        h1.symm
    _ ≤ calculateTotalGapCost blocks entries := h2

theorem instBlockIdx_reassign (eid : InstId) :
    ∀ (l : List ScheduleBlock) (n : Int), instBlockIdx (reassignIds n l) eid = instBlockIdx l eid := by
  intro l
  induction l with
  | nil => intro n; rfl
  | cons b bs ih =>
    intro n
    simp only [reassignIds, instBlockIdx]
    rw [ih (n + 1)]

theorem studentIdxList_reassign (entries : List (InstId × List String)) (sid : String)
    (l : List ScheduleBlock) (n : Int) :
    studentIdxList (reassignIds n l) entries sid = studentIdxList l entries sid := by
  unfold studentIdxList
  have hf : (fun (e : InstId × List String) =>
      match instBlockIdx (reassignIds n l) e.1 with
      | some idx => (e.2.filter (fun s => decide (s = sid))).map (fun _ => (idx : Int))
      | none => []) =
      (fun (e : InstId × List String) =>
      match instBlockIdx l e.1 with
      | some idx => (e.2.filter (fun s => decide (s = sid))).map (fun _ => (idx : Int))
      | none => []) := by
    funext e
    rw [instBlockIdx_reassign]
  rw [hf]

theorem rosterStudents_reassign (entries : List (InstId × List String))
    (l : List ScheduleBlock) (n : Int) :
    rosterStudents (reassignIds n l) entries = rosterStudents l entries := by
  unfold rosterStudents
  have hf : (fun (e : InstId × List String) =>
      match instBlockIdx (reassignIds n l) e.1 with
      | some _ => e.2
      | none => []) =
      (fun (e : InstId × List String) =>
      match instBlockIdx l e.1 with
      | some _ => e.2
      | none => []) := by
    funext e
    rw [instBlockIdx_reassign]
  rw [hf]

/-- Re-assigning block ids does not change the total gap cost (the cost only
reads positions and rosters). -/
theorem totalGapCost_reassign (entries : List (InstId × List String))
    (l : List ScheduleBlock) (n : Int) :
    calculateTotalGapCost (reassignIds n l) entries = calculateTotalGapCost l entries := by
  unfold calculateTotalGapCost
  rw [rosterStudents_reassign]
  congr 1
  funext acc sid
  rw [studentIdxList_reassign]

/-- The id sequence `[n, n+1, ...]` of a given length (the ids written back
by the final `forEach`). -/
def idsFrom (n : Int) : Nat → List Int
  | 0 => []
  | k + 1 => n :: idsFrom (n + 1) k

theorem reassignIds_map_id :
    ∀ (l : List ScheduleBlock) (n : Int),
      (reassignIds n l).map (fun b => b.id) = idsFrom n l.length := by
  intro l
  induction l with
  | nil => intro n; rfl
  | cons b bs ih =>
    intro n
    simp only [reassignIds, List.map_cons, List.length_cons, idsFrom]
    rw [ih (n + 1)]

theorem reassignIds_length :
    ∀ (l : List ScheduleBlock) (n : Int), (reassignIds n l).length = l.length := by
  intro l
  induction l with
  | nil => intro n; rfl
  | cons b bs ih => intro n; simp only [reassignIds, List.length_cons, ih]

/-- Claim C9: the sequence optimizer never accepts a worse state — a swap is
kept only when the total gap cost strictly decreases (each step either
leaves the state untouched or strictly lowers the tracked cost, which
always equals the cost of the tracked order) — so for every sequence of
random draws the final ordering costs at most the pre-optimization
ordering; and the returned blocks carry ids that are exactly the 1-based
positions in final order. -/
theorem claim_C9_hill_climb_monotone (classes : List ClassRoom) (students : List Student)
    (metas : List SubjectMeta) (opt : ScheduleOption) (minSize : Int)
    (draws : List (Nat × Nat)) :
    (∀ (st : List ScheduleBlock × Int) (d : Nat × Nat),
      optStep (schedEntries classes students metas minSize) st d = st ∨
        ((optStep (schedEntries classes students metas minSize) st d).2 < st.2 ∧
          (optStep (schedEntries classes students metas minSize) st d).2 =
            calculateTotalGapCost
              (optStep (schedEntries classes students metas minSize) st d).1
              (schedEntries classes students metas minSize))) ∧
    calculateTotalGapCost
        (calculateMovingClasses classes students metas opt minSize draws).blocks
        (schedEntries classes students metas minSize) ≤
      calculateTotalGapCost (schedPreOptBlocks classes students metas opt minSize)
        (schedEntries classes students metas minSize) ∧
    (calculateMovingClasses classes students metas opt minSize draws).blocks.map
        (fun b => b.id) =
      idsFrom 1
        (calculateMovingClasses classes students metas opt minSize draws).blocks.length := by
  refine ⟨fun st d => optStep_cases _ st d, ?_, ?_⟩
  · show calculateTotalGapCost (reassignIds 1 _) _ ≤ _
    rw [totalGapCost_reassign]
    exact optimize_cost_le _ _ _
  · show (reassignIds 1 _).map _ = idsFrom 1 (reassignIds 1 _).length
    rw [reassignIds_map_id, reassignIds_length]

/-- Counterexample to claim C8 as stated: on a concrete input (three
mutually conflicting singleton-block subjects; student "a" attends all
three, student "b" attends the first and third) a run whose random draws
never propose a usable swap returns total gap cost 1, while a run whose
draws propose swapping blocks 1 and 2 returns total gap cost 0 — two runs
on identical inputs with different random draws return different aggregate
gap costs, not merely different orderings. -/
theorem claim_C8_counterexample :
    calculateTotalGapCost
        (calculateMovingClasses [] [⟨"a", ["P", "Q", "R"], some "1"⟩,
          ⟨"b", ["P", "R"], some "1"⟩, ⟨"c", [], some "1"⟩]
          [⟨"P", "Pn", 2, 1⟩, ⟨"Q", "Qn", 2, 1⟩, ⟨"R", "Rn", 2, 1⟩] .minBlocks 0 []).blocks
        (schedEntries [] [⟨"a", ["P", "Q", "R"], some "1"⟩,
          ⟨"b", ["P", "R"], some "1"⟩, ⟨"c", [], some "1"⟩]
          [⟨"P", "Pn", 2, 1⟩, ⟨"Q", "Qn", 2, 1⟩, ⟨"R", "Rn", 2, 1⟩] 0) = 1 ∧
    calculateTotalGapCost
        (calculateMovingClasses [] [⟨"a", ["P", "Q", "R"], some "1"⟩,
          ⟨"b", ["P", "R"], some "1"⟩, ⟨"c", [], some "1"⟩]
          [⟨"P", "Pn", 2, 1⟩, ⟨"Q", "Qn", 2, 1⟩, ⟨"R", "Rn", 2, 1⟩] .minBlocks 0
          [(1, 2)]).blocks
        (schedEntries [] [⟨"a", ["P", "Q", "R"], some "1"⟩,
          ⟨"b", ["P", "R"], some "1"⟩, ⟨"c", [], some "1"⟩]
          [⟨"P", "Pn", 2, 1⟩, ⟨"Q", "Qn", 2, 1⟩, ⟨"R", "Rn", 2, 1⟩] 0) = 0 := by
  constructor
  · decide
  · decide

/-- Amended claim C8: two runs on identical inputs may disagree on the total
gap cost as well as on the ordering; what does hold for every draw sequence
is that a run never returns a higher cost than the run whose draws leave
the order untouched (the pre-optimization cost). -/
theorem claim_C8_amended_cost_bound (classes : List ClassRoom) (students : List Student)
    (metas : List SubjectMeta) (opt : ScheduleOption) (minSize : Int)
    (draws : List (Nat × Nat)) :
    calculateTotalGapCost
        (calculateMovingClasses classes students metas opt minSize draws).blocks
        (schedEntries classes students metas minSize) ≤
      calculateTotalGapCost
        (calculateMovingClasses classes students metas opt minSize []).blocks
        (schedEntries classes students metas minSize) := by
  show calculateTotalGapCost (reassignIds 1 _) _ ≤ calculateTotalGapCost (reassignIds 1 _) _
  rw [totalGapCost_reassign, totalGapCost_reassign]
  exact optimize_cost_le _ _ _

/-! ## The `min-space` option (claim C1) -/

/-- Amended claim C1: under `min-space` the source does not pre-run Policy A
and does no load balancing — each mixed instance is placed into the first
existing feasible block, and a new block is appended exactly when no
existing block passes the feasibility test. -/
theorem claim_C1_amended_first_fit (instances mixedInstances : List SubjectInstance)
    (metas : List SubjectMeta) :
    scheduleMixed .minSpace instances metas mixedInstances =
      mixedInstances.foldl (firstFitSpecStep instances metas) [] := by
  have hstep : minSpaceStep instances metas = firstFitSpecStep instances metas := by
    funext blocks inst
    rcases placeFirstFit_characterization inst instances metas blocks with
      ⟨hp, hf⟩ | ⟨k, b, hf, hget, hp⟩
    · simp [minSpaceStep, firstFitSpecStep, hp, hf]
    · simp [minSpaceStep, firstFitSpecStep, hp, hf, hget]
  simp only [scheduleMixed, hstep]

/-- Counterexample to claim C1 as stated, at a concrete input.  Four
non-pure instances P, Q, R, S are produced (P and Q conflict through
student "a"); the `min-space` run of the source stacks P, R, S into the
first block (first-fit), while the procedure the claim describes — Policy A
pre-run giving `T = 2`, then least-loaded feasible placement — yields the
balanced blocks P,R and Q,S.  The two placements differ, and the source
places S into a feasible block holding 2 occupants while a feasible block
with 1 occupant exists. -/
theorem claim_C1_counterexample :
    (calculateMovingClasses [] [⟨"a", ["P", "Q"], some "1"⟩, ⟨"b", ["R"], some "1"⟩,
        ⟨"c", ["S"], some "1"⟩, ⟨"d", [], some "1"⟩]
        [⟨"P", "Pn", 1, 1⟩, ⟨"Q", "Qn", 1, 1⟩, ⟨"R", "Rn", 1, 1⟩, ⟨"S", "Sn", 1, 1⟩]
        .minSpace 0 []).blocks.map (fun b => b.subjects) =
      [[⟨"P", .mixed 1, 1⟩, ⟨"R", .mixed 1, 1⟩, ⟨"S", .mixed 1, 1⟩], [⟨"Q", .mixed 1, 1⟩]] ∧
    claimedPolicyB
        (schedInstances [] [⟨"a", ["P", "Q"], some "1"⟩, ⟨"b", ["R"], some "1"⟩,
          ⟨"c", ["S"], some "1"⟩, ⟨"d", [], some "1"⟩]
          [⟨"P", "Pn", 1, 1⟩, ⟨"Q", "Qn", 1, 1⟩, ⟨"R", "Rn", 1, 1⟩, ⟨"S", "Sn", 1, 1⟩] 0)
        [⟨"P", "Pn", 1, 1⟩, ⟨"Q", "Qn", 1, 1⟩, ⟨"R", "Rn", 1, 1⟩, ⟨"S", "Sn", 1, 1⟩]
        ((schedInstances [] [⟨"a", ["P", "Q"], some "1"⟩, ⟨"b", ["R"], some "1"⟩,
          ⟨"c", ["S"], some "1"⟩, ⟨"d", [], some "1"⟩]
          [⟨"P", "Pn", 1, 1⟩, ⟨"Q", "Qn", 1, 1⟩, ⟨"R", "Rn", 1, 1⟩, ⟨"S", "Sn", 1, 1⟩] 0).filter
          (fun i => !i.isPure)) =
      [⟨1, [⟨"P", .mixed 1, 1⟩, ⟨"R", .mixed 1, 1⟩]⟩,
        ⟨2, [⟨"Q", .mixed 1, 1⟩, ⟨"S", .mixed 1, 1⟩]⟩] := by
  constructor
  · decide
  · decide

/-! ## Mandatory-subject exclusion (claim C7) -/

theorem mem_excludedSubjectNames (students : List Student) (x : String) :
    ∀ metas : List SubjectMeta,
      (x ∈ excludedSubjectNames students metas ↔
        ∃ m ∈ metas, m.name = x ∧ mandatoryCond students m.code) := by
  intro metas
  induction metas with
  | nil => simp [excludedSubjectNames]
  | cons m ms ih =>
    simp only [excludedSubjectNames]
    by_cases hc : mandatoryCond students m.code
    · rw [if_pos hc]
      constructor
      · intro h
        rcases List.mem_cons.mp h with h | h
        · exact ⟨m, List.mem_cons_self _ _, h.symm, hc⟩
        · obtain ⟨m2, hm2, hname, hcond⟩ := ih.mp h
          exact ⟨m2, List.mem_cons_of_mem _ hm2, hname, hcond⟩
      · intro ⟨m2, hm2, hname, hcond⟩
        rcases List.mem_cons.mp hm2 with h | h
        · subst h; exact hname ▸ List.mem_cons_self _ _
        · exact List.mem_cons_of_mem _ (ih.mpr ⟨m2, h, hname, hcond⟩)
    · rw [if_neg hc]
      constructor
      · intro h
        obtain ⟨m2, hm2, hname, hcond⟩ := ih.mp h
        exact ⟨m2, List.mem_cons_of_mem _ hm2, hname, hcond⟩
      · intro ⟨m2, hm2, hname, hcond⟩
        rcases List.mem_cons.mp hm2 with h | h
        · subst h; exact absurd hcond hc
        · exact ih.mpr ⟨m2, h, hname, hcond⟩

/-- Claim C7: a subject (with distinct catalogue names) is excluded and
warned exactly when its selection count equals a positive total population;
a zero-count subject is excluded silently — it is neither warned nor made
active; with an empty population nothing is excluded and the run emits no
warnings (and, being a total function, raises no error); and a mandatory
subject contributes no instance at all. -/
theorem claim_C7_mandatory_exclusion (students : List Student) (metas : List SubjectMeta)
    (hnames : (metas.map (fun m => m.name)).Nodup) :
    (∀ m ∈ metas,
      (m.name ∈ excludedSubjectNames students metas ↔
        (subjectCount students m.code = students.length ∧ 0 < students.length))) ∧
    (∀ m ∈ metas, subjectCount students m.code = 0 →
      m.name ∉ excludedSubjectNames students metas ∧
        activeCode metas students m.code = false) ∧
    (students = [] →
      excludedSubjectNames students metas = [] ∧
      ∀ classes opt minSize draws,
        (calculateMovingClasses classes students metas opt minSize draws).warnings = []) ∧
    (∀ m ∈ metas, mandatoryCond students m.code →
      ∀ classes minSize, ∀ inst ∈ buildInstances classes students metas minSize,
        inst.id.code ≠ m.code) := by
  have hinj : ∀ m ∈ metas, ∀ m2 ∈ metas, m2.name = m.name → m2 = m := by
    intro m hm m2 hm2 hname
    exact List.inj_on_of_nodup_map hnames hm2 hm hname
  refine ⟨?_, ?_, ?_, ?_⟩
  · intro m hm
    rw [mem_excludedSubjectNames]
    constructor
    · intro ⟨m2, hm2, hname, hcond⟩
      rw [hinj m hm m2 hm2 hname] at hcond
      exact hcond
    · intro h
      exact ⟨m, hm, rfl, h⟩
  · intro m hm hzero
    constructor
    · intro hmem
      obtain ⟨m2, hm2, hname, hcond⟩ := (mem_excludedSubjectNames students m.name metas).mp hmem
      rw [hinj m hm m2 hm2 hname] at hcond
      obtain ⟨h1, h2⟩ := hcond
      omega
    · simp only [activeCode, hzero]
      simp
  · intro hempty
    subst hempty
    have hexc : excludedSubjectNames [] metas = [] := by
      rw [List.eq_nil_iff_forall_not_mem]
      intro x hx
      obtain ⟨m2, _, _, _, hcond⟩ := (mem_excludedSubjectNames [] x metas).mp hx
      simp at hcond
    refine ⟨hexc, ?_⟩
    intro classes opt minSize draws
    simp [calculateMovingClasses, hexc]
  · intro m hm hcond classes minSize inst hinst heq
    have hact := buildInstances_active classes students metas minSize inst hinst
    rw [heq] at hact
    simp only [activeCode, Bool.and_eq_true, decide_eq_true_eq, Bool.not_eq_true'] at hact
    exact absurd (decide_eq_true hcond) (by simpa using hact.2.2)

/-- Witness for C7 at a concrete input: subject M is selected by the whole
(positive) population and is excluded with a warning entry, subject Z is
selected by nobody and is silently dropped. -/
theorem claim_C7_witness :
    ("Mn" ∈ excludedSubjectNames
        [⟨"a", ["M"], some "1"⟩, ⟨"b", ["M"], some "1"⟩]
        [⟨"M", "Mn", 1, 1⟩, ⟨"Z", "Zn", 1, 1⟩]) ∧
    ("Zn" ∉ excludedSubjectNames
        [⟨"a", ["M"], some "1"⟩, ⟨"b", ["M"], some "1"⟩]
        [⟨"M", "Mn", 1, 1⟩, ⟨"Z", "Zn", 1, 1⟩]) ∧
    activeCode [⟨"M", "Mn", 1, 1⟩, ⟨"Z", "Zn", 1, 1⟩]
        [⟨"a", ["M"], some "1"⟩, ⟨"b", ["M"], some "1"⟩] "Z" = false := by
  have h := claim_C7_mandatory_exclusion
    [⟨"a", ["M"], some "1"⟩, ⟨"b", ["M"], some "1"⟩]
    [⟨"M", "Mn", 1, 1⟩, ⟨"Z", "Zn", 1, 1⟩] (by decide)
  refine ⟨?_, ?_, ?_⟩
  · exact (h.1 ⟨"M", "Mn", 1, 1⟩ (by decide)).mpr (by decide)
  · exact (h.2.1 ⟨"Z", "Zn", 1, 1⟩ (by decide) (by decide)).1
  · exact (h.2.1 ⟨"Z", "Zn", 1, 1⟩ (by decide) (by decide)).2

/-! ## Roster completeness (claim C2) -/

/-- Whether the homeroom scan keeps `sid`: the source `continue`s unless the
student record exists and has a truthy `classNum`. -/
def scanKeeps (students : List Student) (sid : String) : Bool :=
  match lookupStudent students sid with
  | some s => hasClass s
  | none => false

/-- Total multiplicity of `sid` across the rosters of a grouping map. -/
def entrySum (sid : String) (m : List (String × List String)) : Nat :=
  (m.map (fun e => e.2.count sid)).sum

theorem count_single_eq (v sid : String) : ([v].count sid) = if v = sid then 1 else 0 := by
  by_cases h : v = sid
  · subst h; simp
  · simp [List.count_cons, h]

theorem pushEntry_entrySum (k v sid : String) :
    ∀ m, entrySum sid (pushEntry k v m) = entrySum sid m + (if v = sid then 1 else 0) := by
  intro m
  induction m with
  | nil =>
    simp only [pushEntry, entrySum, List.map_cons, List.map_nil, List.sum_cons, List.sum_nil]
    rw [count_single_eq]
    omega
  | cons e rest ih =>
    simp only [pushEntry]
    by_cases he : e.1 = k
    · rw [if_pos he]
      simp only [entrySum, List.map_cons, List.sum_cons, List.count_append]
      rw [count_single_eq]
      omega
    · rw [if_neg he]
      simp only [entrySum, List.map_cons, List.sum_cons]
      simp only [entrySum] at ih
      omega

theorem homeroomStep_entrySum (students : List Student) (sid' sid : String) :
    ∀ m, entrySum sid (homeroomStep students m sid') =
      entrySum sid m + (if scanKeeps students sid' = true ∧ sid' = sid then 1 else 0) := by
  intro m
  cases hlook : lookupStudent students sid' with
  | none =>
    have h1 : homeroomStep students m sid' = m := by unfold homeroomStep; rw [hlook]
    have h2 : scanKeeps students sid' = false := by unfold scanKeeps; rw [hlook]
    rw [h1, h2, if_neg (by simp)]
    omega
  | some s =>
    have h2 : scanKeeps students sid' = hasClass s := by unfold scanKeeps; rw [hlook]
    by_cases hc : hasClass s
    · have h1 : homeroomStep students m sid' = pushEntry (classKey s) sid' m := by
        unfold homeroomStep; rw [hlook]; exact if_pos hc
      rw [h1, pushEntry_entrySum, h2]
      by_cases hs : sid' = sid
      · rw [if_pos hs, if_pos ⟨hc, hs⟩]
      · rw [if_neg hs, if_neg (fun h => hs h.2)]
    · have h1 : homeroomStep students m sid' = m := by
        unfold homeroomStep; rw [hlook]; exact if_neg hc
      rw [h1, h2, if_neg (fun h => hc h.1)]
      omega

theorem foldl_homeroomStep_entrySum (students : List Student) (sid : String) :
    ∀ (sids : List String) (m : List (String × List String)),
      entrySum sid (sids.foldl (homeroomStep students) m) =
        entrySum sid m +
          (sids.map (fun x => if scanKeeps students x = true ∧ x = sid then 1 else 0)).sum := by
  intro sids
  induction sids with
  | nil => intro m; simp
  | cons x xs ih =>
    intro m
    simp only [List.foldl_cons, List.map_cons, List.sum_cons]
    rw [ih, homeroomStep_entrySum]
    omega

theorem lookupStudent_self (students : List Student)
    (hnd : (students.map (fun s => s.id)).Nodup) :
    ∀ s ∈ students, lookupStudent students s.id = some s := by
  induction students with
  | nil => intro s h; simp at h
  | cons t rest ih =>
    intro s hmem
    simp only [List.map_cons, List.nodup_cons] at hnd
    rcases List.mem_cons.mp hmem with h | h
    · subst h
      exact List.find?_cons_of_pos _ (by simp)
    · have hstep : lookupStudent (t :: rest) s.id = lookupStudent rest s.id := by
        unfold lookupStudent
        apply List.find?_cons_of_neg
        simp only [decide_eq_true_eq]
        intro hcon
        exact hnd.1 (by rw [hcon]; exact List.mem_map_of_mem _ h)
      rw [hstep]
      exact ih hnd.2 s h

theorem sum_map_const {α : Type} (c : Nat) : ∀ l : List α, (l.map (fun _ => c)).sum = l.length * c := by
  intro l
  induction l with
  | nil => simp
  | cons x xs ih =>
    simp only [List.map_cons, List.sum_cons, List.length_cons, ih, Nat.succ_mul]
    omega

theorem mem_dedupFirstAux_of_mem {α : Type} [DecidableEq α] (x : α) :
    ∀ (l seen : List α), x ∈ l → x ∉ seen → x ∈ dedupFirstAux seen l := by
  intro l
  induction l with
  | nil => intro seen h _; simp at h
  | cons y ys ih =>
    intro seen hmem hseen
    simp only [dedupFirstAux]
    by_cases hy : y ∈ seen
    · rw [if_pos hy]
      rcases List.mem_cons.mp hmem with h | h
      · exact absurd (by rw [h]; exact hy) hseen
      · exact ih seen h hseen
    · rw [if_neg hy]
      rcases List.mem_cons.mp hmem with h | h
      · rw [h]; exact List.mem_cons_self _ _
      · by_cases hxy : x = y
        · rw [hxy]; exact List.mem_cons_self _ _
        · refine List.mem_cons_of_mem _ (ih (y :: seen) h ?_)
          intro hc
          rcases List.mem_cons.mp hc with h2 | h2
          · exact hxy h2
          · exact hseen h2

theorem subjectCount_pos_mem (students : List Student) (code : String)
    (h : 0 < subjectCount students code) :
    code ∈ students.flatMap (fun s => s.selectedSubjects) := by
  induction students with
  | nil => simp [subjectCount] at h
  | cons s rest ih =>
    simp only [subjectCount, List.map_cons, List.sum_cons] at h
    by_cases hc : 0 < s.selectedSubjects.count code
    · exact List.mem_flatMap.mpr ⟨s, List.mem_cons_self _ _, List.count_pos_iff.mp hc⟩
    · have hrest : 0 < subjectCount rest code := by unfold subjectCount; omega
      obtain ⟨t, ht, h3⟩ := List.mem_flatMap.mp (ih hrest)
      exact List.mem_flatMap.mpr ⟨t, List.mem_cons_of_mem _ ht, h3⟩

theorem mem_activeCodesInOrder (metas : List SubjectMeta) (students : List Student)
    (code : String) (h : activeCode metas students code = true) :
    code ∈ activeCodesInOrder metas students := by
  have hcnt : 0 < subjectCount students code := by
    simp only [activeCode, Bool.and_eq_true, decide_eq_true_eq] at h
    exact h.2.1
  exact mem_dedupFirstAux_of_mem code _ []
    (List.mem_filter.mpr ⟨subjectCount_pos_mem students code hcnt, h⟩) (by simp)

theorem range_filter_zero : ∀ n : Nat, (List.range n).filter (fun c => decide (c + 1 = 1)) =
    if n = 0 then [] else [0] := by
  intro n
  induction n with
  | zero => rfl
  | succ m ih =>
    rw [List.range_succ, List.filter_append, ih]
    cases m with
    | zero => rfl
    | succ k => simp

theorem sessions_filter_one (credit : Nat) (hc : 1 ≤ credit) :
    (sessions credit).filter (fun c => decide (c = 1)) = [1] := by
  unfold sessions
  rw [List.filter_map]
  have hpred : ((fun c => decide (c = 1)) ∘ (fun c : Nat => c + 1)) =
      (fun c => decide (c + 1 = 1)) := rfl
  rw [hpred, range_filter_zero, if_neg (by omega)]
  rfl

theorem session_filter_one (code : String) (g : GroupTag) (roster : List String) (pb : Bool)
    (credit : Nat) (hc : 1 ≤ credit) :
    ((sessions credit).map (fun c => mkInstance code g c roster pb)).filter
        (fun i => decide (i.id.code = code) && decide (i.id.session = 1)) =
      [mkInstance code g 1 roster pb] := by
  rw [List.filter_map]
  have hpred : ((fun i : SubjectInstance => decide (i.id.code = code) && decide (i.id.session = 1)) ∘
      (fun c => mkInstance code g c roster pb)) = (fun c => decide (c = 1)) := by
    funext c
    show (decide (code = code) && decide (c = 1)) = decide (c = 1)
    rw [decide_eq_true (rfl : code = code), Bool.true_and]
  rw [hpred, sessions_filter_one credit hc]
  rfl

theorem splitIntoBalancedChunks_flatten (items : List String) (minSize maxSize : Int)
    (hm : 1 ≤ maxSize) :
    (splitIntoBalancedChunks items minSize maxSize).flatten = items := by
  have hmN : 1 ≤ maxSize.toNat := by omega
  by_cases hnil : items.length = 0
  · rw [List.eq_nil_of_length_eq_zero hnil]
    rfl
  · by_cases hdeg : minSize ≤ 0 ∨ maxSize < minSize
    · have hsplit : splitIntoBalancedChunks items minSize maxSize = chunkSeq items maxSize := by
        unfold splitIntoBalancedChunks
        rw [if_neg hnil, if_pos hdeg]
      rw [hsplit]
      simp only [chunkSeq, if_neg (by omega : ¬ maxSize ≤ 0)]
      exact chunkSeqGo_join _ _ _ le_rfl
    · push_neg at hdeg
      obtain ⟨hms1, hms2⟩ := hdeg
      have hn : 1 ≤ items.length := by omega
      obtain ⟨hg1, _⟩ := ceil_group_bounds items.length maxSize.toNat hmN hn
      set g0 := (items.length + maxSize.toNat - 1) / maxSize.toNat with hg0
      have hgif : (if g0 = 0 then 1 else g0) = g0 := by rw [if_neg (by omega)]
      have hsplit : splitIntoBalancedChunks items minSize maxSize =
          takeChunks g0 (items.length / g0) (items.length % g0) items := by
        unfold splitIntoBalancedChunks
        rw [if_neg hnil, if_neg (by push_neg; exact ⟨by omega, by omega⟩)]
        simp only [← hg0, hgif]
      have hdm : g0 * (items.length / g0) + items.length % g0 = items.length :=
        Nat.div_add_mod _ _
      have hmodlt : items.length % g0 < g0 := Nat.mod_lt _ (by omega)
      rw [hsplit]
      exact takeChunks_join _ _ _ _ (by omega)

theorem sum_indicator_unique (code sid : String) :
    ∀ students : List Student, (students.map (fun s => s.id)).Nodup →
      (students.map (fun s =>
          if s.id = sid ∧ code ∈ s.selectedSubjects ∧ hasClass s then 1 else 0)).sum =
        if ∃ s ∈ students, s.id = sid ∧ code ∈ s.selectedSubjects ∧ hasClass s then 1 else 0 := by
  intro students
  induction students with
  | nil => intro _; simp
  | cons t rest ih =>
    intro hnd
    simp only [List.map_cons, List.nodup_cons] at hnd
    simp only [List.map_cons, List.sum_cons]
    by_cases hcond : t.id = sid ∧ code ∈ t.selectedSubjects ∧ hasClass t
    · rw [if_pos hcond]
      have hrest : (rest.map (fun s =>
          if s.id = sid ∧ code ∈ s.selectedSubjects ∧ hasClass s then 1 else 0)).sum = 0 := by
        rw [List.sum_eq_zero_iff]
        intro x hx
        obtain ⟨s, hsmem, hval⟩ := List.mem_map.mp hx
        rw [← hval, if_neg]
        intro hc
        exact hnd.1 (by rw [hcond.1, ← hc.1]; exact List.mem_map_of_mem _ hsmem)
      rw [hrest, if_pos ⟨t, List.mem_cons_self _ _, hcond⟩]
    · rw [if_neg hcond, ih hnd.2, Nat.zero_add]
      have hiff : (∃ s ∈ t :: rest, s.id = sid ∧ code ∈ s.selectedSubjects ∧ hasClass s) ↔
          (∃ s ∈ rest, s.id = sid ∧ code ∈ s.selectedSubjects ∧ hasClass s) := by
        constructor
        · rintro ⟨s, hsmem, hP⟩
          rcases List.mem_cons.mp hsmem with h | h
          · exact absurd (h ▸ hP) hcond
          · exact ⟨s, h, hP⟩
        · rintro ⟨s, hsmem, hP⟩
          exact ⟨s, List.mem_cons_of_mem _ hsmem, hP⟩
      exact (if_congr hiff rfl rfl).symm

theorem instancesForCode_session1_count (classes : List ClassRoom) (students : List Student)
    (metas : List SubjectMeta) (minSize : Int) (code sid : String)
    (hids : (students.map (fun s => s.id)).Nodup)
    (hsels : ∀ s ∈ students, s.selectedSubjects.Nodup)
    (hmax : 1 ≤ effMaxSize classes)
    (hcredit : 1 ≤ creditOf metas code) :
    (((instancesForCode classes students metas minSize code).filter
        (fun i => decide (i.id.code = code) && decide (i.id.session = 1))).map
      (fun i => i.students.count sid)).sum =
      if ∃ s ∈ students, s.id = sid ∧ code ∈ s.selectedSubjects ∧ hasClass s then 1 else 0 := by
  simp only [instancesForCode]
  rw [List.filter_append, List.map_append, List.sum_append]
  set sids := subjectGroup students code with hsids
  set groups := homeroomGroups students sids with hgroups
  set credit := creditOf metas code with hcreditdef
  set split := splitPure students groups with hsplitdef
  set chunks := splitIntoBalancedChunks split.2 minSize (effMaxSize classes) with hchunks
  have hpure : ((split.1.flatMap (fun e => (sessions credit).map
        (fun c => mkInstance code (GroupTag.homeroom e.1) c e.2 true))).filter
      (fun i => decide (i.id.code = code) && decide (i.id.session = 1))).map
        (fun i => i.students.count sid) =
      split.1.map (fun e => e.2.count sid) := by
    rw [filter_flatMap_comm]
    have hfun : (fun e : String × List String =>
        ((sessions credit).map (fun c => mkInstance code (GroupTag.homeroom e.1) c e.2 true)).filter
          (fun i => decide (i.id.code = code) && decide (i.id.session = 1))) =
        (fun e => [mkInstance code (GroupTag.homeroom e.1) 1 e.2 true]) := by
      funext e
      exact session_filter_one code (GroupTag.homeroom e.1) e.2 true credit hcredit
    rw [hfun, flatMap_singleton_eq_map, List.map_map]
    rfl
  have hmixed : ((chunks.enum.flatMap (fun p => (sessions credit).map
        (fun c => mkInstance code (GroupTag.mixed (p.1 + 1)) c p.2 false))).filter
      (fun i => decide (i.id.code = code) && decide (i.id.session = 1))).map
        (fun i => i.students.count sid) =
      chunks.enum.map (fun p => p.2.count sid) := by
    rw [filter_flatMap_comm]
    have hfun : (fun p : Nat × List String =>
        ((sessions credit).map
            (fun c => mkInstance code (GroupTag.mixed (p.1 + 1)) c p.2 false)).filter
          (fun i => decide (i.id.code = code) && decide (i.id.session = 1))) =
        (fun p => [mkInstance code (GroupTag.mixed (p.1 + 1)) 1 p.2 false]) := by
      funext p
      exact session_filter_one code (GroupTag.mixed (p.1 + 1)) p.2 false credit hcredit
    rw [hfun, flatMap_singleton_eq_map, List.map_map]
    rfl
  rw [hpure, hmixed]
  have henum : chunks.enum.map (fun p => p.2.count sid) = chunks.map (fun c => c.count sid) := by
    have h1 : (fun p : Nat × List String => p.2.count sid) =
        (fun c : List String => c.count sid) ∘ Prod.snd := rfl
    rw [h1, ← List.map_map, List.enum_map_snd]
  rw [henum]
  have hflat : (chunks.map (fun c => c.count sid)).sum = split.2.count sid := by
    rw [← count_flatten_chunks, hchunks, splitIntoBalancedChunks_flatten _ _ _ hmax]
  rw [hflat]
  have hfst : split.1 = groups.filter (pureCond students) := by
    rw [hsplitdef]; exact splitPure_fst_eq _ _
  have hsnd : split.2.count sid =
      ((groups.filter (fun e => !(pureCond students e))).map (fun e => e.2.count sid)).sum := by
    rw [hsplitdef, splitPure_snd_eq, count_flatMap_snd]
  rw [hfst, hsnd, sum_filter_split]
  have hgs : (groups.map (fun e => e.2.count sid)).sum = entrySum sid groups := rfl
  rw [hgs, hgroups]
  show entrySum sid (sids.foldl (homeroomStep students) []) = _
  rw [foldl_homeroomStep_entrySum]
  simp only [entrySum, List.map_nil, List.sum_nil, Nat.zero_add]
  rw [hsids]
  unfold subjectGroup
  rw [sum_map_flatMap]
  have hper : ∀ s ∈ students,
      (((s.selectedSubjects.filter (fun c => decide (c = code))).map (fun _ => s.id)).map
        (fun x => if scanKeeps students x = true ∧ x = sid then 1 else 0)).sum =
      (if s.id = sid ∧ code ∈ s.selectedSubjects ∧ hasClass s then 1 else 0) := by
    intro s hs
    rw [List.map_map]
    have hcomp : ((fun x => if scanKeeps students x = true ∧ x = sid then 1 else 0) ∘
        (fun _ : String => s.id)) = (fun _ : String =>
          if scanKeeps students s.id = true ∧ s.id = sid then 1 else 0) := rfl
    rw [hcomp, sum_map_const, filter_eq_single_of_nodup _ (hsels s hs) code]
    have hscan : scanKeeps students s.id = hasClass s := by
      unfold scanKeeps
      rw [lookupStudent_self students hids s hs]
    rw [hscan]
    by_cases hmem : code ∈ s.selectedSubjects
    · rw [if_pos hmem, Nat.one_mul]
      by_cases hcond : hasClass s = true ∧ s.id = sid
      · rw [if_pos hcond, if_pos ⟨hcond.2, hmem, hcond.1⟩]
      · rw [if_neg hcond, if_neg (fun h => hcond ⟨h.2.2, h.1⟩)]
    · rw [if_neg hmem, Nat.zero_mul, if_neg (fun h => hmem h.2.1)]
  rw [List.map_congr_left hper]
  exact sum_indicator_unique code sid students hids

/-- C2, amended: roster completeness holds only for selecting students whose
record has a truthy `classNum`.  For every active subject code (stated per
student id, over the session-1 instances of that code, so credit-session
duplicates are ignored): a student who selected the code and has a truthy
`classNum` appears in exactly one instance roster, exactly once; a student
who did not select it, or whose record lacks a truthy `classNum`, appears in
no roster at all.  Hypotheses: distinct student ids, per-student
duplicate-free selections, a positive chunk cap (the terminating regime of
the chunking loop, see C10), and a positive credit for the code. -/
theorem claim_C2_amended_completeness (classes : List ClassRoom) (students : List Student)
    (metas : List SubjectMeta) (minSize : Int) (code sid : String)
    (hids : (students.map (fun s => s.id)).Nodup)
    (hsels : ∀ s ∈ students, s.selectedSubjects.Nodup)
    (hmax : 1 ≤ effMaxSize classes)
    (hactive : activeCode metas students code = true)
    (hcredit : 1 ≤ creditOf metas code) :
    (((buildInstances classes students metas minSize).filter
        (fun i => decide (i.id.code = code) && decide (i.id.session = 1))).map
      (fun i => i.students.count sid)).sum =
      if ∃ s ∈ students, s.id = sid ∧ code ∈ s.selectedSubjects ∧ hasClass s then 1 else 0 := by
  unfold buildInstances
  rw [filter_flatMap_comm, sum_map_flatMap]
  have hz : ∀ c ∈ activeCodesInOrder metas students, c ≠ code →
      (((instancesForCode classes students metas minSize c).filter
          (fun i => decide (i.id.code = code) && decide (i.id.session = 1))).map
        (fun i => i.students.count sid)).sum = 0 := by
    intro c hc hne
    rw [List.sum_eq_zero_iff]
    intro x hx
    obtain ⟨i, hi, hval⟩ := List.mem_map.mp hx
    have hpred := List.of_mem_filter hi
    have himem := List.mem_of_mem_filter hi
    simp only [Bool.and_eq_true, decide_eq_true_eq] at hpred
    have hcode := instancesForCode_code classes students metas minSize c i himem
    exact absurd (hcode.symm.trans hpred.1) hne
  rw [sum_eq_single_code _ _ code (activeCodesInOrder_nodup metas students)
    (mem_activeCodesInOrder metas students code hactive) hz]
  exact instancesForCode_session1_count classes students metas minSize code sid
    hids hsels hmax hcredit

/-- Counterexample to C2 as claimed: the scan over a subject's selecting
students skips every student whose record has no truthy `classNum` (the
source guards on `student?.classNum`), so such a student reaches neither a
homeroom group nor the mixed pool.  Student "a" has `classNum = none` and is
the only selector of the active subject "S", yet instance creation returns
no instance at all: "a" appears in no roster, contradicting the claim that
roster completeness covers students without a homeroom identifier. -/
theorem claim_C2_counterexample :
    activeCode [⟨"S", "Sn", 1, 1⟩] [⟨"a", ["S"], none⟩, ⟨"b", [], some "1"⟩] "S" = true ∧
    ("S" ∈ ([⟨"a", ["S"], none⟩, ⟨"b", [], some "1"⟩] : List Student).flatMap
        (fun s => s.selectedSubjects)) ∧
    (⟨"a", ["S"], none⟩ : Student).classNum = none ∧
    buildInstances [] [⟨"a", ["S"], none⟩, ⟨"b", [], some "1"⟩] [⟨"S", "Sn", 1, 1⟩] 0 = [] := by
  refine ⟨by decide, by decide, rfl, ?_⟩
  rfl

/-- Witness for the amended C2 at a concrete input: with subject "S" active
and selected by "a" (homeroom "1") and by "c" (no `classNum`), the session-1
rosters of "S" contain "a" exactly once and "c" not at all. -/
theorem claim_C2_witness :
    (((buildInstances [] [⟨"a", ["S"], some "1"⟩, ⟨"b", [], some "1"⟩, ⟨"c", ["S"], none⟩]
          [⟨"S", "Sn", 1, 1⟩] 0).filter
        (fun i => decide (i.id.code = "S") && decide (i.id.session = 1))).map
      (fun i => i.students.count "a")).sum = 1 ∧
    (((buildInstances [] [⟨"a", ["S"], some "1"⟩, ⟨"b", [], some "1"⟩, ⟨"c", ["S"], none⟩]
          [⟨"S", "Sn", 1, 1⟩] 0).filter
        (fun i => decide (i.id.code = "S") && decide (i.id.session = 1))).map
      (fun i => i.students.count "c")).sum = 0 := by
  constructor
  · rw [claim_C2_amended_completeness [] [⟨"a", ["S"], some "1"⟩, ⟨"b", [], some "1"⟩, ⟨"c", ["S"], none⟩]
      [⟨"S", "Sn", 1, 1⟩] 0 "S" "a" (by decide) (by decide) (by decide) (by decide) (by decide)]
    decide
  · rw [claim_C2_amended_completeness [] [⟨"a", ["S"], some "1"⟩, ⟨"b", [], some "1"⟩, ⟨"c", ["S"], none⟩]
      [⟨"S", "Sn", 1, 1⟩] 0 "S" "c" (by decide) (by decide) (by decide) (by decide) (by decide)]
    decide

/-- Witness for C10 at concrete inputs: three items chunk by 2 within the
fuel bound, and one item with `maxSize = 0` exhausts any amount of fuel. -/
theorem claim_C10_witness :
    ((1 : Int) ≤ 2 ∧
      seqLoopFuel ["a", "b", "c"] 2 4 0 = some (chunkSeqGo 2 3 ["a", "b", "c"])) ∧
    ((0 : Int) ≤ 0 ∧ (["a"] : List String) ≠ [] ∧ seqLoopFuel ["a"] 0 77 0 = none) := by
  refine ⟨⟨by norm_num, ?_⟩, ⟨le_rfl, by simp, ?_⟩⟩
  · exact (claim_C10_chunk_termination ["a", "b", "c"] 1 2).1 (by norm_num)
  · exact ((claim_C10_chunk_termination ["a"] 1 0).2 le_rfl (by simp)).2 77

end BBJ
